import Mathlib

/-!
# Verification of `scripts/update-budgets.py`

A shallow embedding of the budget-update script.  File contents and test
output are modelled as `List Char`; Python's `str` values become `List Char`,
Python integers become `Nat` (all integers handled by the script are
non-negative decimal literals) or `Int` where sign matters (process return
codes, exit codes).  Python dictionaries (with their insertion-order
semantics) are modelled as association lists with in-place update.

Each regular-expression of the script is embedded as an explicit
deterministic matcher over `List Char`.  For the character classes the ASCII
ranges are used (`\s`, `\d`, `\w`, `[a-z]`, `[A-Z]`, `[0-9_]`).  The
regexes of the script are such that Python's backtracking never produces a
match different from the greedy deterministic one (each greedy token is
followed by a character that cannot start the greedy class), so the
deterministic matchers are faithful.

`re.finditer`/`re.sub` scan left to right producing non-overlapping
leftmost matches; this is embedded as a fuel-indexed scan that either
consumes a whole match or advances one character.

Floating-point percentages of the statistics reporter are modelled as exact
rationals (`ℚ`).
-/

set_option maxHeartbeats 1000000

namespace UB

/-- Convert a string literal to the character-list representation used
throughout this development. -/
def s2l (s : String) : List Char := s.data

/-- ASCII whitespace: the characters matched by the regex class \s. -/
def isSpc (c : Char) : Bool :=
  c.toNat = 32 || c.toNat = 9 || c.toNat = 10 || c.toNat = 13 || c.toNat = 11 || c.toNat = 12

/-- ASCII decimal digit: the regex class \d. -/
def isDig (c : Char) : Bool := 48 ≤ c.toNat && c.toNat ≤ 57

/-- ASCII lower-case letter: the regex class [a-z]. -/
def isLow (c : Char) : Bool := 97 ≤ c.toNat && c.toNat ≤ 122

/-- ASCII upper-case letter: the regex class [A-Z]. -/
def isUpp (c : Char) : Bool := 65 ≤ c.toNat && c.toNat ≤ 90

/-- The regex class \w (ASCII part). -/
def isWordCh (c : Char) : Bool := isLow c || isUpp c || isDig c || c.toNat = 95

/-- Characters matched by [0-9_] in the ExUnits literal pattern. -/
def isNumCh (c : Char) : Bool := isDig c || c.toNat = 95

/-- ASCII letter: the regex class [a-zA-Z]. -/
def isAlpha (c : Char) : Bool := isLow c || isUpp c

/-! ## Numeric codec -/

/-- The character for a single decimal digit `d < 10`. -/
def digitChar (d : Nat) : Char := Char.ofNat (48 + d)

/-- Little-endian digit characters of `n`, fuel-indexed so that the
definition is structural (and hence evaluates inside `decide`). -/
def digitsRevAux : Nat → Nat → List Char
  | 0, _ => []
  | f + 1, n => if n < 10 then [digitChar n] else digitChar (n % 10) :: digitsRevAux f (n / 10)

/-- Decimal representation of a natural number, as Python's `str(n)`. -/
def natStr (n : Nat) : List Char := (digitsRevAux (n + 1) n).reverse

/-- Python's `int()` on a decimal digit string. -/
def strToNat (l : List Char) : Nat := l.foldl (fun a c => a * 10 + (c.toNat - 48)) 0

/-- `INT_MAX` from the script (Int.MaxValue). -/
def INT_MAX : Nat := 2147483647

/-- The `formatted` let-binding of `fmt_num`: `s[:-6] + "_" + s[-6:]` when the
decimal form has at least 7 digits, otherwise `s` unchanged. -/
def fmtCore (n : Nat) : List Char :=
  let s := natStr n
  if 7 ≤ s.length then s.take (s.length - 6) ++ '_' :: s.drop (s.length - 6) else s

/-- `fmt_num` from update-budgets.py: the grouped digits plus an `L` suffix
when `n > INT_MAX`. -/
def fmt_num (n : Nat) : List Char :=
  if INT_MAX < n then fmtCore n ++ ['L'] else fmtCore n

/-- `fmt_exunits` from update-budgets.py. -/
def fmt_exunits (mem steps : Nat) : List Char :=
  s2l "ExUnits(memory = " ++ fmt_num mem ++ s2l ", steps = " ++ fmt_num steps ++ [')']

/-- Python's `rstrip("L")`: drop every trailing `'L'`. -/
def rstripL (l : List Char) : List Char := (l.reverse.dropWhile (fun c => c = 'L')).reverse

/-- `strip_num` from update-budgets.py:
`int(s.replace("_", "").rstrip("L"))`. -/
def strip_num (l : List Char) : Nat :=
  strToNat (rstripL (l.filter (fun c => !(c = '_'))))

/-! ### Codec lemmas -/

theorem digitsRevAux_fuel (n : Nat) :
    ∀ f g, n < f → n < g → digitsRevAux f n = digitsRevAux g n := by
  induction n using Nat.strong_induction_on with
  | _ n ih =>
    intro f g hf hg
    match f, g with
    | f' + 1, g' + 1 =>
      simp only [digitsRevAux]
      by_cases h10 : n < 10
      · simp [h10]
      · simp only [h10, if_false]
        have hlt : n / 10 < n := Nat.div_lt_self (by omega) (by omega)
        rw [ih (n / 10) hlt f' g' (by omega) (by omega)]

theorem natStr_eq (n : Nat) :
    natStr n = if n < 10 then [digitChar n] else natStr (n / 10) ++ [digitChar (n % 10)] := by
  by_cases h10 : n < 10
  · simp [natStr, digitsRevAux, h10]
  · have hlt : n / 10 < n := Nat.div_lt_self (by omega) (by omega)
    have h1 : digitsRevAux (n + 1) n = digitChar (n % 10) :: digitsRevAux n (n / 10) := by
      simp [digitsRevAux, h10]
    have h2 : digitsRevAux n (n / 10) = digitsRevAux (n / 10 + 1) (n / 10) :=
      digitsRevAux_fuel (n / 10) n (n / 10 + 1) (by omega) (by omega)
    simp only [h10, if_false]
    rw [natStr, h1, h2]
    simp [natStr]

theorem digitChar_toNat {d : Nat} (h : d < 10) : (digitChar d).toNat = 48 + d := by
  interval_cases d <;> decide

theorem isDig_digitChar {d : Nat} (h : d < 10) : isDig (digitChar d) = true := by
  simp [isDig, digitChar_toNat h]
  omega

theorem natStr_all_dig (n : Nat) : ∀ c ∈ natStr n, isDig c = true := by
  induction n using Nat.strong_induction_on with
  | _ n ih =>
    intro c hc
    rw [natStr_eq] at hc
    by_cases h10 : n < 10
    · simp [h10] at hc
      subst hc
      exact isDig_digitChar h10
    · simp [h10] at hc
      rcases hc with hc | hc
      · exact ih (n / 10) (Nat.div_lt_self (by omega) (by omega)) c hc
      · subst hc
        exact isDig_digitChar (Nat.mod_lt _ (by omega))

theorem natStr_ne_nil (n : Nat) : natStr n ≠ [] := by
  rw [natStr_eq]
  by_cases h10 : n < 10 <;> simp [h10]

theorem strToNat_append_digit (l : List Char) (c : Char) :
    strToNat (l ++ [c]) = strToNat l * 10 + (c.toNat - 48) := by
  simp [strToNat, List.foldl_append]

theorem strToNat_natStr (n : Nat) : strToNat (natStr n) = n := by
  induction n using Nat.strong_induction_on with
  | _ n ih =>
    rw [natStr_eq]
    by_cases h10 : n < 10
    · simp [h10, strToNat, digitChar_toNat h10]
    · simp only [h10, if_false]
      rw [strToNat_append_digit, ih (n / 10) (Nat.div_lt_self (by omega) (by omega)),
        digitChar_toNat (Nat.mod_lt _ (by omega))]
      omega

/-- A digit character is none of the special characters used elsewhere. -/
theorem isDig_toNat_bounds {c : Char} (h : isDig c = true) :
    48 ≤ c.toNat ∧ c.toNat ≤ 57 := by
  simp [isDig] at h
  exact h

theorem isDig_ne_underscore {c : Char} (h : isDig c = true) : c ≠ '_' := by
  intro hEq
  subst hEq
  simp [isDig] at h

theorem isDig_ne_L {c : Char} (h : isDig c = true) : c ≠ 'L' := by
  intro hEq
  subst hEq
  simp [isDig] at h

theorem filter_ne_underscore_of_dig (l : List Char) (h : ∀ c ∈ l, isDig c = true) :
    l.filter (fun c => !(c = '_')) = l := by
  induction l with
  | nil => rfl
  | cons c t iht =>
    have hc : c ≠ '_' := isDig_ne_underscore (h c (by simp))
    simp only [List.filter_cons]
    simp [hc, iht fun x hx => h x (List.mem_cons_of_mem _ hx)]

theorem rstripL_of_dig (l : List Char) (h : ∀ c ∈ l, isDig c = true) :
    rstripL l = l := by
  unfold rstripL
  cases hrev : l.reverse with
  | nil => simp_all
  | cons c t =>
    have hc : c ∈ l := by
      have : c ∈ l.reverse := by rw [hrev]; simp
      simpa using this
    have : ¬(c = 'L') := isDig_ne_L (h c hc)
    rw [List.dropWhile_cons_of_neg (by simpa using this)]
    rw [← hrev, List.reverse_reverse]

/-! `natStr` length against powers of ten. -/

theorem natStr_length_pos (n : Nat) : 0 < (natStr n).length :=
  List.length_pos.mpr (natStr_ne_nil n)

theorem lt_pow_length_natStr (n : Nat) : n < 10 ^ (natStr n).length := by
  induction n using Nat.strong_induction_on with
  | _ n ih =>
    rw [natStr_eq]
    by_cases h10 : n < 10
    · simp only [h10, if_true, List.length_cons, List.length_nil]
      omega
    · simp only [h10, if_false, List.length_append, List.length_cons, List.length_nil]
      have h1 := ih (n / 10) (Nat.div_lt_self (by omega) (by omega))
      have h2 : n < 10 * (10 ^ (natStr (n / 10)).length) := by
        have := Nat.div_add_mod n 10
        have hmod : n % 10 < 10 := Nat.mod_lt _ (by omega)
        omega
      calc n < 10 * 10 ^ (natStr (n / 10)).length := h2
        _ = 10 ^ ((natStr (n / 10)).length + 0 + 1) := by ring

theorem natStr_length_le (n k : Nat) (hk : 1 ≤ k) (h : n < 10 ^ k) :
    (natStr n).length ≤ k := by
  induction n using Nat.strong_induction_on generalizing k with
  | _ n ih =>
    rw [natStr_eq]
    by_cases h10 : n < 10
    · simp only [h10, if_true, List.length_cons, List.length_nil]
      omega
    · simp only [h10, if_false, List.length_append, List.length_cons, List.length_nil]
      have hk2 : 2 ≤ k := by
        by_contra hlt
        have : k = 1 := by omega
        subst this
        simp at h
        omega
      have hdiv : n / 10 < 10 ^ (k - 1) := by
        have : n < 10 * 10 ^ (k - 1) := by
          have : (10:Nat) ^ k = 10 * 10 ^ (k - 1) := by
            conv_lhs => rw [show k = (k - 1) + 1 by omega]
            ring
          omega
        omega
      have := ih (n / 10) (Nat.div_lt_self (by omega) (by omega)) (k - 1) (by omega) hdiv
      omega

theorem pow_le_of_length_le (n k : Nat) (hk : 1 ≤ k) (h : k + 1 ≤ (natStr n).length) :
    10 ^ k ≤ n := by
  by_contra hlt
  push_neg at hlt
  have := natStr_length_le n k hk hlt
  omega

theorem natStr_length_ge_iff (n k : Nat) (hk : 1 ≤ k) :
    k + 1 ≤ (natStr n).length ↔ 10 ^ k ≤ n := by
  constructor
  · exact pow_le_of_length_le n k hk
  · intro h
    by_contra hlt
    push_neg at hlt
    have hle : (natStr n).length ≤ k := by omega
    have := lt_pow_length_natStr n
    have : n < 10 ^ k := lt_of_lt_of_le this (Nat.pow_le_pow_right (by omega) hle)
    omega

theorem rstripL_append_L (l : List Char) : rstripL (l ++ ['L']) = rstripL l := by
  unfold rstripL
  rw [List.reverse_append]
  simp only [List.reverse_cons, List.reverse_nil, List.nil_append, List.singleton_append]
  rw [List.dropWhile_cons_of_pos (by decide)]

theorem rstripL_eq_self (l : List Char) (c : Char) (t : List Char)
    (hrev : l.reverse = c :: t) (hc : ¬(c = 'L')) : rstripL l = l := by
  unfold rstripL
  rw [hrev, List.dropWhile_cons_of_neg (by simpa using hc), ← hrev, List.reverse_reverse]

theorem fmtCore_filter (n : Nat) : (fmtCore n).filter (fun c => !(c = '_')) = natStr n := by
  unfold fmtCore
  by_cases h7 : 7 ≤ (natStr n).length
  · have h1 := filter_ne_underscore_of_dig ((natStr n).take ((natStr n).length - 6))
      (fun c hc => natStr_all_dig n c (List.take_subset _ _ hc))
    have h2 := filter_ne_underscore_of_dig ((natStr n).drop ((natStr n).length - 6))
      (fun c hc => natStr_all_dig n c (List.drop_subset _ _ hc))
    simp only [h7, if_true, List.filter_append, List.filter_cons]
    simp [h1, h2]
  · simp only [h7, if_false]
    exact filter_ne_underscore_of_dig _ (natStr_all_dig n)

/-- **C4** (codec round-trip): for every non-negative integer `n`, parsing the
formatted literal returns `n` again: `strip_num (fmt_num n) = n`. -/
theorem codec_roundtrip (n : Nat) : strip_num (fmt_num n) = n := by
  have hfil := fmtCore_filter n
  unfold strip_num fmt_num
  by_cases hL : INT_MAX < n
  · simp only [hL, if_true, List.filter_append]
    rw [show ['L'].filter (fun c => !(c = '_')) = ['L'] from rfl, hfil, rstripL_append_L,
      rstripL_of_dig _ (natStr_all_dig n), strToNat_natStr]
  · simp only [hL, if_false]
    rw [hfil, rstripL_of_dig _ (natStr_all_dig n), strToNat_natStr]

theorem count_underscore_zero_of_dig (l : List Char) (h : ∀ c ∈ l, isDig c = true) :
    l.count '_' = 0 := by
  rw [List.count_eq_zero]
  intro hmem
  have := h '_' hmem
  simp [isDig] at this

theorem fmtCore_decomp (n : Nat) (h7 : 7 ≤ (natStr n).length) :
    fmtCore n = (natStr n).take ((natStr n).length - 6) ++
      '_' :: (natStr n).drop ((natStr n).length - 6) := by
  unfold fmtCore
  simp [h7]

theorem fmtCore_count_underscore (n : Nat) :
    (fmtCore n).count '_' = if 7 ≤ (natStr n).length then 1 else 0 := by
  by_cases h7 : 7 ≤ (natStr n).length
  · rw [fmtCore_decomp n h7]
    simp only [h7, if_true, List.count_append, List.count_cons]
    rw [count_underscore_zero_of_dig _
      (fun c hc => natStr_all_dig n c (List.take_subset _ _ hc)),
      count_underscore_zero_of_dig _
      (fun c hc => natStr_all_dig n c (List.drop_subset _ _ hc))]
    simp
  · unfold fmtCore
    simp only [h7, if_false]
    exact count_underscore_zero_of_dig _ (natStr_all_dig n)

theorem fmtCore_reverse_head_dig (n : Nat) :
    ∃ c t, (fmtCore n).reverse = c :: t ∧ isDig c = true := by
  by_cases h7 : 7 ≤ (natStr n).length
  · rw [fmtCore_decomp n h7]
    set v := (natStr n).drop ((natStr n).length - 6) with hv
    have hvlen : v.length = 6 := by
      rw [hv, List.length_drop]
      omega
    cases hrev : v.reverse with
    | nil =>
      have : v = [] := by simpa using congrArg List.reverse hrev
      rw [this] at hvlen
      simp at hvlen
    | cons c t =>
      have hcv : c ∈ v := by
        have : c ∈ v.reverse := by rw [hrev]; simp
        simpa using this
      refine ⟨c, t ++ '_' :: ((natStr n).take ((natStr n).length - 6)).reverse, ?_, ?_⟩
      · rw [List.reverse_append, List.reverse_cons, hrev]
        simp
      · exact natStr_all_dig n c (List.drop_subset _ _ hcv)
  · unfold fmtCore
    simp only [h7, if_false]
    cases hrev : (natStr n).reverse with
    | nil =>
      have : natStr n = [] := by simpa using congrArg List.reverse hrev
      exact absurd this (natStr_ne_nil n)
    | cons c t =>
      have hcv : c ∈ natStr n := by
        have : c ∈ (natStr n).reverse := by rw [hrev]; simp
        simpa using this
      exact ⟨c, t, rfl, natStr_all_dig n c hcv⟩

/-- **C5**: `fmt_num n` contains exactly one grouping mark iff `n ≥ 10^6`
(otherwise none); when present, the mark sits exactly 6 digits from the end
of the suffix-stripped literal; and the literal carries the `L` suffix iff
`n > 2147483647`. -/
theorem fmt_num_grouping_and_suffix (n : Nat) :
    ((fmt_num n).count '_' = if 10 ^ 6 ≤ n then 1 else 0)
    ∧ (10 ^ 6 ≤ n → ∃ u v, rstripL (fmt_num n) = u ++ '_' :: v ∧ v.length = 6 ∧
        (∀ c ∈ v, isDig c = true) ∧ '_' ∉ u)
    ∧ ((fmt_num n).reverse.head? = some 'L' ↔ INT_MAX < n) := by
  have hiff : 7 ≤ (natStr n).length ↔ 10 ^ 6 ≤ n := natStr_length_ge_iff n 6 (by omega)
  obtain ⟨c, t, hrev, hcdig⟩ := fmtCore_reverse_head_dig n
  have hcL : ¬(c = 'L') := isDig_ne_L hcdig
  have hstrip : rstripL (fmt_num n) = fmtCore n := by
    unfold fmt_num
    by_cases hL : INT_MAX < n
    · simp only [hL, if_true]
      rw [rstripL_append_L]
      exact rstripL_eq_self _ c t hrev hcL
    · simp only [hL, if_false]
      exact rstripL_eq_self _ c t hrev hcL
  refine ⟨?_, ?_, ?_⟩
  · have hcount : (fmt_num n).count '_' = (fmtCore n).count '_' := by
      unfold fmt_num
      by_cases hL : INT_MAX < n <;> simp [hL, List.count_append]
    rw [hcount, fmtCore_count_underscore]
    by_cases h7 : 7 ≤ (natStr n).length
    · have h6 := hiff.mp h7
      norm_num at h6
      simp [h7, h6]
    · have h6 : ¬ 10 ^ 6 ≤ n := fun hc => h7 (hiff.mpr hc)
      simp only [if_neg h6, if_neg h7]
  · intro h6
    have h7 : 7 ≤ (natStr n).length := hiff.mpr h6
    refine ⟨(natStr n).take ((natStr n).length - 6),
      (natStr n).drop ((natStr n).length - 6), ?_, ?_, ?_, ?_⟩
    · rw [hstrip, fmtCore_decomp n h7]
    · rw [List.length_drop]
      omega
    · exact fun cc hcc => natStr_all_dig n cc (List.drop_subset _ _ hcc)
    · intro hmem
      have := natStr_all_dig n '_' (List.take_subset _ _ hmem)
      simp [isDig] at this
  · unfold fmt_num
    by_cases hL : INT_MAX < n
    · simp only [hL, if_true]
      rw [List.reverse_append]
      simp [hL]
    · simp only [hL, if_false, hrev, List.head?_cons, iff_false]
      intro hsome
      exact hcL (Option.some_inj.mp hsome)

/-! ## Data model: costs, the budget mapping (a Python dict), size mismatches -/

/-- A resource-cost pair `(memory, steps)`. -/
abbrev Cost := Nat × Nat

/-- The budget mapping, a Python dict with insertion-order semantics,
modelled as an association list where insertion updates in place. -/
abbrev BMap := List (Cost × Cost)

/-- A size mismatch `(old_size, new_size, filename, line)`. -/
abbrev SizeM := Nat × Nat × List Char × Nat

/-- A test file, as a `(relative-path, content)` pair. -/
abbrev FileEntry := List Char × List Char

/-- `d[k] = v` on a Python dict: update in place if the key is present,
append otherwise. -/
def dictInsert (k v : Cost) : BMap → BMap
  | [] => [(k, v)]
  | (k', v') :: t => if k' = k then (k', v) :: t else (k', v') :: dictInsert k v t

/-- `k in d` / `d[k]` on a Python dict. -/
def lookupB (k : Cost) : BMap → Option Cost
  | [] => none
  | (k', v') :: t => if k' = k then some v' else lookupB k t

/-- `list(dict.fromkeys(xs))`: deduplicate keeping first occurrences. -/
def dedupAux : List (List Char) → List (List Char) → List (List Char)
  | _, [] => []
  | seen, x :: t => if x ∈ seen then dedupAux seen t else x :: dedupAux (x :: seen) t

def dedup (l : List (List Char)) : List (List Char) := dedupAux [] l

/-! ## String utilities: split/join on newlines, find/replace -/

/-- Python's `s.split("\n")`. -/
def splitNl : List Char → List (List Char)
  | [] => [[]]
  | c :: t =>
    if c = '\n' then [] :: splitNl t
    else
      match splitNl t with
      | [] => [[c]]
      | h :: r => (c :: h) :: r

/-- Python's `"\n".join(lines)`. -/
def joinNl : List (List Char) → List Char
  | [] => []
  | [x] => x
  | x :: y :: r => x ++ '\n' :: joinNl (y :: r)

/-- Python's `pat in s` (for a literal pattern). -/
def containsSub (pat : List Char) : List Char → Bool
  | [] => pat.isPrefixOf []
  | c :: t => pat.isPrefixOf (c :: t) || containsSub pat t

/-- Python's `s.replace(pat, rep)` (all leftmost non-overlapping
occurrences), fuel-indexed; `pat` is never empty at the call sites. -/
def replaceAllAux (pat rep : List Char) : Nat → List Char → List Char
  | 0, l => l
  | _ + 1, [] => []
  | f + 1, c :: t =>
    if pat.isPrefixOf (c :: t) then rep ++ replaceAllAux pat rep f ((c :: t).drop pat.length)
    else c :: replaceAllAux pat rep f t

def replaceAll (pat rep l : List Char) : List Char := replaceAllAux pat rep l.length l

/-! ## Literal matchers

Each compiled regex of the script becomes a deterministic matcher.  A
matcher takes the text at the current position and returns the consumed
match (with its capture groups) and the rest, or `none`. -/

/-- Match a literal string, returning the rest. -/
def matchLit : List Char → List Char → Option (List Char)
  | [], l => some l
  | _ :: _, [] => none
  | p :: ps, c :: cs => if c = p then matchLit ps cs else none

/-- `(\d+)`: one or more digits, greedy. -/
def digTok (l : List Char) : Option (List Char × List Char) :=
  match l.takeWhile isDig with
  | [] => none
  | d :: ds => some (d :: ds, l.dropWhile isDig)

/-- `([0-9_]+L?)`: grouped digits with an optional trailing `L`. -/
def numTok (l : List Char) : Option (List Char × List Char) :=
  match l.takeWhile isNumCh with
  | [] => none
  | d :: ds =>
    match l.dropWhile isNumCh with
    | c :: r => if c = 'L' then some ((d :: ds) ++ ['L'], r) else some (d :: ds, c :: r)
    | [] => some (d :: ds, [])

/-- `(?:kw\s*=\s*)?`: the optional field-name prefix of EXUNITS_RE.
Returns `(consumed, rest)`; when the group does not match, nothing is
consumed. -/
def optKeyEq (kw : List Char) (l : List Char) : List Char × List Char :=
  match matchLit kw l with
  | none => ([], l)
  | some l1 =>
    let spA := l1.takeWhile isSpc
    match l1.dropWhile isSpc with
    | c :: l3 =>
      if c = '=' then (kw ++ spA ++ '=' :: l3.takeWhile isSpc, l3.dropWhile isSpc)
      else ([], l)
    | [] => ([], l)

def litExUnits : List Char := s2l "ExUnits("
def litMemory : List Char := s2l "memory"
def litSteps : List Char := s2l "steps"

/-- EXUNITS_RE:
`ExUnits\(\s*(?:memory\s*=\s*)?([0-9_]+L?)\s*,\s*(?:steps\s*=\s*)?([0-9_]+L?)\s*\)`.
Returns `(whole match, group 1, group 2, rest)`. -/
def tryMatchEx (l : List Char) : Option (List Char × List Char × List Char × List Char) :=
  match matchLit litExUnits l with
  | none => none
  | some l1 =>
    let sp1 := l1.takeWhile isSpc
    let l2 := l1.dropWhile isSpc
    let mg := optKeyEq litMemory l2
    match numTok mg.2 with
    | none => none
    | some (g1, l4) =>
      let sp2 := l4.takeWhile isSpc
      match l4.dropWhile isSpc with
      | c5 :: l5 =>
        if c5 = ',' then
          let sp3 := l5.takeWhile isSpc
          let l6 := l5.dropWhile isSpc
          let sg := optKeyEq litSteps l6
          match numTok sg.2 with
          | none => none
          | some (g2, l8) =>
            let sp4 := l8.takeWhile isSpc
            match l8.dropWhile isSpc with
            | c9 :: l9 =>
              if c9 = ')' then
                some (litExUnits ++ sp1 ++ mg.1 ++ g1 ++ sp2 ++
                  ',' :: (sp3 ++ sg.1 ++ g2 ++ sp4 ++ [')']), g1, g2, l9)
              else none
            | [] => none
        else none
      | [] => none

def litExpected : List Char := s2l "expected: ExUnits("
def litButGot : List Char := s2l "but got: ExUnits("

/-- The tail of pattern 1: `but got: ExUnits\((\d+),(\d+)\);`. -/
def matchButGot (l : List Char) : Option (Cost × List Char) :=
  match matchLit litButGot l with
  | none => none
  | some l1 =>
    match digTok l1 with
    | none => none
    | some (d3, l2) =>
      match l2 with
      | c :: l3 =>
        if c = ',' then
          match digTok l3 with
          | none => none
          | some (d4, l4) =>
            match matchLit (s2l ");") l4 with
            | some l5 => some ((strToNat d3, strToNat d4), l5)
            | none => none
        else none
      | [] => none

/-- The non-greedy gap `.*?` (with DOTALL) of pattern 1: find the first
position at which the tail matches. -/
def searchButGot : Nat → List Char → Option (Cost × List Char)
  | 0, _ => none
  | f + 1, l =>
    match matchButGot l with
    | some r => some r
    | none =>
      match l with
      | [] => none
      | _ :: t => searchButGot f t

/-- Pattern 1:
`expected: ExUnits\((\d+),(\d+)\),.*?but got: ExUnits\((\d+),(\d+)\);`
(DOTALL).  Returns `((old pair, new pair), rest)`. -/
def tryMatchP1 (l : List Char) : Option ((Cost × Cost) × List Char) :=
  match matchLit litExpected l with
  | none => none
  | some l1 =>
    match digTok l1 with
    | none => none
    | some (d1, l2) =>
      match l2 with
      | c :: l3 =>
        if c = ',' then
          match digTok l3 with
          | none => none
          | some (d2, l4) =>
            match matchLit (s2l "),") l4 with
            | some l5 =>
              match searchButGot l5.length l5 with
              | none => none
              | some (nw, r) => some (((strToNat d1, strToNat d2), nw), r)
            | none => none
        else none
      | [] => none

def litP2Mid : List Char := s2l ") did not equal ExUnits("

/-- Pattern 2:
`ExUnits\((\d+),\s*(\d+)\) did not equal ExUnits\((\d+),\s*(\d+)\)`.
Returns `((actual pair, expected pair), rest)`, in the order the groups
appear in the text. -/
def tryMatchP2 (l : List Char) : Option ((Cost × Cost) × List Char) :=
  match matchLit litExUnits l with
  | none => none
  | some l1 =>
    match digTok l1 with
    | none => none
    | some (a1, l2) =>
      match l2 with
      | c3 :: l3 =>
        if c3 = ',' then
          match digTok (l3.dropWhile isSpc) with
          | none => none
          | some (a2, l4) =>
            match matchLit litP2Mid l4 with
            | none => none
            | some l5 =>
              match digTok l5 with
              | none => none
              | some (e1, l6) =>
                match l6 with
                | c7 :: l7 =>
                  if c7 = ',' then
                    match digTok (l7.dropWhile isSpc) with
                    | none => none
                    | some (e2, l8) =>
                      match l8 with
                      | c9 :: l9 =>
                        if c9 = ')' then
                          some (((strToNat a1, strToNat a2), (strToNat e1, strToNat e2)), l9)
                        else none
                      | [] => none
                  else none
                | [] => none
        else none
      | [] => none

def litDidNotEq : List Char := s2l " did not equal "
def litScala : List Char := s2l ".scala"

/-- Pattern 3: `(\d+) did not equal (\d+) \((\w+\.scala):(\d+)\)`.
Returns `((actual, expected, filename, line), rest)`. -/
def tryMatchP3 (l : List Char) : Option ((Nat × Nat × List Char × Nat) × List Char) :=
  match digTok l with
  | none => none
  | some (d1, l1) =>
    match matchLit litDidNotEq l1 with
    | none => none
    | some l2 =>
      match digTok l2 with
      | none => none
      | some (d2, l3) =>
        match matchLit (s2l " (") l3 with
        | none => none
        | some l4 =>
          match l4.takeWhile isWordCh with
          | [] => none
          | w :: ws =>
            match matchLit litScala (l4.dropWhile isWordCh) with
            | none => none
            | some l5 =>
              match l5 with
              | c6 :: l6 =>
                if c6 = ':' then
                  match digTok l6 with
                  | none => none
                  | some (d4, l7) =>
                    match l7 with
                    | c8 :: l8 =>
                      if c8 = ')' then
                        some ((strToNat d1, strToNat d2, (w :: ws) ++ litScala, strToNat d4), l8)
                      else none
                    | [] => none
                else none
              | [] => none

/-- ANSI_RE: `\x1b\[[0-9;]*[a-zA-Z]|\[0J` (when the first alternative's
prefix `\x1b\[` is present but no letter follows, the second alternative
cannot match at the same position either, so returning `none` directly is
faithful). -/
def tryAnsi (l : List Char) : Option (List Char) :=
  match matchLit (s2l "\x1b[") l with
  | some r =>
    (match r.dropWhile (fun c => isDig c || c = ';') with
     | c :: r2 => if isAlpha c then some r2 else none
     | [] => none)
  | none =>
    match matchLit (s2l "[0J") l with
    | some r => some r
    | none => none

/-! ## Scanners (`re.finditer` / `re.sub`): fuel-indexed left-to-right
non-overlapping scans -/

/-- `ANSI_RE.sub("", text)`. -/
def stripAnsiAux : Nat → List Char → List Char
  | 0, l => l
  | _ + 1, [] => []
  | f + 1, c :: t =>
    match tryAnsi (c :: t) with
    | some r => stripAnsiAux f r
    | none => c :: stripAnsiAux f t

def strip_ansi (l : List Char) : List Char := stripAnsiAux l.length l

def scanP1Aux : Nat → List Char → List (Cost × Cost)
  | 0, _ => []
  | _ + 1, [] => []
  | f + 1, c :: t =>
    match tryMatchP1 (c :: t) with
    | some (e, r) => e :: scanP1Aux f r
    | none => scanP1Aux f t

def scanP1 (l : List Char) : List (Cost × Cost) := scanP1Aux l.length l

def scanP2Aux : Nat → List Char → List (Cost × Cost)
  | 0, _ => []
  | _ + 1, [] => []
  | f + 1, c :: t =>
    match tryMatchP2 (c :: t) with
    | some (e, r) => e :: scanP2Aux f r
    | none => scanP2Aux f t

def scanP2 (l : List Char) : List (Cost × Cost) := scanP2Aux l.length l

def scanP3Aux : Nat → List Char → List (Nat × Nat × List Char × Nat)
  | 0, _ => []
  | _ + 1, [] => []
  | f + 1, c :: t =>
    match tryMatchP3 (c :: t) with
    | some (e, r) => e :: scanP3Aux f r
    | none => scanP3Aux f t

def scanP3 (l : List Char) : List (Nat × Nat × List Char × Nat) := scanP3Aux l.length l

/-- `parse_failures` from update-budgets.py: strip ANSI codes, build the
ExUnits mapping from patterns 1 and 2 (later matches overwrite earlier
keys), then collect pattern-3 scalar mismatches, skipping `actual ==
expected` and pairs whose forward or reversed pair is a key of the
mapping. -/
def parse_failures (output : List Char) : BMap × List SizeM :=
  let text := strip_ansi output
  let m1 := (scanP1 text).foldl (fun m e => dictInsert e.1 e.2 m) []
  let m2 := (scanP2 text).foldl (fun m e => dictInsert e.2 e.1 m) m1
  let sizes := (scanP3 text).filterMap fun e =>
    if e.1 = e.2.1 then none
    else if (lookupB (e.2.1, e.1) m2).isSome || (lookupB (e.1, e.2.1) m2).isSome then none
    else some (e.2.1, e.1, e.2.2.1, e.2.2.2)
  (m2, sizes)

/-! ## Replacement engine -/

/-- The `replacer` closure of `replace_exunits`: parse both groups, rewrite
to the canonical new literal when the pair is a mapping key, otherwise
return the match unchanged. -/
def exReplacer (m : BMap) (w g1 g2 : List Char) : List Char :=
  match lookupB (strip_num g1, strip_num g2) m with
  | some v => fmt_exunits v.1 v.2
  | none => w

/-- `EXUNITS_RE.sub(replacer, content)`. -/
def exSubAux (m : BMap) : Nat → List Char → List Char
  | 0, l => l
  | _ + 1, [] => []
  | f + 1, c :: t =>
    match tryMatchEx (c :: t) with
    | some (w, g1, g2, r) => exReplacer m w g1 g2 ++ exSubAux m f r
    | none => c :: exSubAux m f t

def exSub (m : BMap) (l : List Char) : List Char := exSubAux m l.length l

def replaceExFilesGo (m : BMap) : List FileEntry → List FileEntry × List (List Char)
  | [] => ([], [])
  | (n, c) :: fs =>
    let c' := exSub m c
    let r := replaceExFilesGo m fs
    ((n, c') :: r.1, (if c' ≠ c then [n] else []) ++ r.2)

/-- `replace_exunits` from update-budgets.py: rewrite every test file,
reporting the files whose content changed. -/
def replace_exunits (m : BMap) (files : List FileEntry) :
    List FileEntry × List (List Char) :=
  if m = [] then (files, []) else replaceExFilesGo m files

/-- One step of the per-line loop of `replace_sizes`: replace the old size
on the (1-based) line `lineNo` only. -/
def sizeLineFix (oldSz newSz lineNo : Nat) (content : List Char) : List Char :=
  let lines := splitNl content
  let idx : Int := (lineNo : Int) - 1
  if 0 ≤ idx ∧ idx < lines.length then
    let i := idx.toNat
    let oldLine := lines.getD i []
    let newLine := replaceAll (natStr oldSz) (natStr newSz) oldLine
    if newLine ≠ oldLine then joinNl (lines.set i newLine) else content
  else content

/-- The first (line-scoped) loop of `replace_sizes` for one file. -/
def sizeLinePhase (ms : List SizeM) (fname : List Char) (content : List Char) : List Char :=
  ms.foldl (fun c e => if e.2.2.1 = fname then sizeLineFix e.1 e.2.1 e.2.2.2 c else c) content

/-- The second (file-wide `"size is {old}"`) loop of `replace_sizes` for one
file. -/
def sizeNamePhase (ms : List SizeM) (fname : List Char) (content : List Char) : List Char :=
  ms.foldl (fun c e =>
    if e.2.2.1 = fname then
      replaceAll (s2l "size is " ++ natStr e.1) (s2l "size is " ++ natStr e.2.1) c
    else c) content

def replaceSzFilesGo (ms : List SizeM) : List FileEntry → List FileEntry × List (List Char)
  | [] => ([], [])
  | (n, c) :: fs =>
    let c' := sizeNamePhase ms n (sizeLinePhase ms n c)
    let r := replaceSzFilesGo ms fs
    ((n, c') :: r.1, (if c' ≠ c then [n] else []) ++ r.2)

/-- `replace_sizes` from update-budgets.py. -/
def replace_sizes (ms : List SizeM) (files : List FileEntry) :
    List FileEntry × List (List Char) :=
  if ms = [] then (files, [])
  else
    let r := replaceSzFilesGo ms files
    (r.1, dedup r.2)

/-- The combined engine application of one loop iteration of `main`:
`updated = replace_exunits(...) + replace_sizes(...)`, deduplicated. -/
def applyEngine (m : BMap) (ms : List SizeM) (files : List FileEntry) :
    List FileEntry × List (List Char) :=
  let r1 := replace_exunits m files
  let r2 := replace_sizes ms r1.1
  (r2.1, dedup (r1.2 ++ r2.2))

/-! ## Failing-class extraction -/

/-- `re.sub(r"^\[(?:error|info)\]\s*", "", line)`. -/
def stripTag (l : List Char) : List Char :=
  match matchLit (s2l "[error]") l with
  | some r => r.dropWhile isSpc
  | none =>
    match matchLit (s2l "[info]") l with
    | some r => r.dropWhile isSpc
    | none => l

/-- Python's `str.strip()`. -/
def stripPy (l : List Char) : List Char :=
  ((l.dropWhile isSpc).reverse.dropWhile isSpc).reverse

/-- `re.match(r"^[a-z][\w.]*[A-Z]\w*$", line)`: a lowercase letter, then a
split point after which an uppercase letter is followed by word characters
up to the end. -/
def isClassName (l : List Char) : Bool :=
  match l with
  | [] => false
  | c :: rest =>
    isLow c && (List.range (rest.length + 1)).any fun k =>
      (rest.take k).all (fun ch => isWordCh ch || ch = '.') &&
        (match rest.drop k with
         | d :: ds => isUpp d && ds.all isWordCh
         | [] => false)

def pfcStep (st : List (List Char) × Bool) (line : List Char) : List (List Char) × Bool :=
  let cleaned := stripPy (stripTag line)
  if cleaned = s2l "Failed tests:" then (st.1, true)
  else if st.2 then
    (if isClassName cleaned then (st.1 ++ [cleaned], true) else (st.1, false))
  else (st.1, false)

/-- `parse_failing_classes` from update-budgets.py. -/
def parse_failing_classes (output : List Char) : List (List Char) :=
  dedup ((splitNl (strip_ansi output)).foldl pfcStep ([], false)).1

/-! ## Statistics reporter

The reporter only prints; its computations are modelled as a pure record.
The floating-point percentages are modelled as exact rationals. -/

structure StatsReport where
  noChanges : Bool
  total : Nat
  decreases : Nat
  increases : Nat
  memPcts : List ℚ
  stepsPcts : List ℚ
  sizeLines : List (Nat × Nat × List Char × Nat × ℚ)
  regressions : Option (List ((Cost × Cost) × ℚ × ℚ))

/-- `delta / old * 100`, with `old == 0` treated as `0`. -/
def pctQ (oldV newV : Nat) : ℚ :=
  if oldV = 0 then 0 else ((newV : ℚ) - (oldV : ℚ)) / (oldV : ℚ) * 100

/-- Whether an entry counts as a decrease (both deltas `≤ 0`). -/
def isDecrease (e : Cost × Cost) : Bool :=
  decide (e.2.1 ≤ e.1.1 ∧ e.2.2 ≤ e.1.2)

/-- The body of the `for (old_mem, old_steps), (new_mem, new_steps) in
mapping.items()` loop of `report_statistics`, over the running state
`(decreases, increases, mem_pcts, steps_pcts)`. -/
def statsStep (st : Nat × Nat × List ℚ × List ℚ) (e : Cost × Cost) :
    Nat × Nat × List ℚ × List ℚ :=
  ((if isDecrease e then st.1 + 1 else st.1),
   (if isDecrease e then st.2.1 else st.2.1 + 1),
   st.2.2.1 ++ [pctQ e.1.1 e.2.1],
   st.2.2.2 ++ [pctQ e.1.2 e.2.2])

/-- `report_statistics` from update-budgets.py, as the data it prints. -/
def report_statistics (m : BMap) (sizes : List SizeM) : StatsReport :=
  if m = [] ∧ sizes = [] then
    { noChanges := true, total := 0, decreases := 0, increases := 0,
      memPcts := [], stepsPcts := [], sizeLines := [], regressions := none }
  else
    let st := m.foldl statsStep (0, 0, [], [])
    { noChanges := false
      total := m.length
      decreases := st.1
      increases := st.2.1
      memPcts := st.2.2.1
      stepsPcts := st.2.2.2
      sizeLines := sizes.map (fun e => (e.1, e.2.1, e.2.2.1, e.2.2.2, pctQ e.1 e.2.1))
      regressions :=
        if st.2.1 ≠ 0 then
          some (m.filterMap fun e =>
            if e.1.1 < e.2.1 ∨ e.1.2 < e.2.2 then
              some (e, pctQ e.1.1 e.2.1, pctQ e.1.2 e.2.2)
            else none)
        else none }

/-! ## Convergence controller

The external test runner is modelled as an oracle stream: call number `i`
returns `(combined output, return code)`.  The model records the index of
the next unconsumed call, so "no further rerun happened" is visible as an
unchanged index. -/

abbrev Runner := Nat → List Char × Int

/-- `"benchmarks" in cls or cls.startswith("scalus.examples")`. -/
def isExampleCls (cls : List Char) : Bool :=
  containsSub (s2l "benchmarks") cls || (s2l "scalus.examples").isPrefixOf cls

/-- `run_specific_tests`: one runner call per non-empty bucket (core first,
examples second); outputs are concatenated, the return code is the last
non-zero one. -/
def run_specific_tests (oracle : Runner) (idx : Nat) (classes : List (List Char)) :
    List Char × Int × Nat :=
  let core := classes.filter (fun c => !(isExampleCls c))
  let ex := classes.filter isExampleCls
  let r1 := if core ≠ [] then (let r := oracle idx; (r.1, r.2, idx + 1)) else ([], 0, idx)
  let r2 := if ex ≠ [] then (let r := oracle r1.2.2; (r.1, r.2, r1.2.2 + 1)) else ([], 0, r1.2.2)
  (r1.1 ++ r2.1, (if r2.2.1 ≠ 0 then r2.2.1 else if r1.2.1 ≠ 0 then r1.2.1 else 0), r2.2.2)

structure LoopSt where
  output : List Char
  files : List FileEntry
  allEx : BMap
  allSz : List SizeM
  failing : List (List Char)
  updSet : List (List Char)
  idx : Nat

inductive LoopStatus where
  | noMismatch
  | dryStop
  | stalled
  | converged
  | exhausted
deriving DecidableEq

structure LoopRes where
  files : List FileEntry
  allEx : BMap
  allSz : List SizeM
  failing : List (List Char)
  updSet : List (List Char)
  idx : Nat
  output : List Char
  status : LoopStatus

/-- The primary fix-up loop of `main` (the `for iteration in range(25)`
block): parse, accumulate, patch, and rerun a narrowed scope, stopping on
no mismatches, dry run, zero files updated (stall), or a passing rerun. -/
def loop1 (dry : Bool) (oracle : Runner) : Nat → LoopSt → LoopRes
  | 0, st =>
    { files := st.files, allEx := st.allEx, allSz := st.allSz, failing := st.failing,
      updSet := st.updSet, idx := st.idx, output := st.output, status := .exhausted }
  | f + 1, st =>
    let pr := parse_failures st.output
    let ncls := parse_failing_classes st.output
    let failing := if ncls ≠ [] then ncls else st.failing
    if pr.1 = [] ∧ pr.2 = [] then
      { files := st.files, allEx := st.allEx, allSz := st.allSz, failing := failing,
        updSet := st.updSet, idx := st.idx, output := st.output, status := .noMismatch }
    else
      let allEx := pr.1.foldl (fun mm e => dictInsert e.1 e.2 mm) st.allEx
      let allSz := st.allSz ++ pr.2
      if dry then
        { files := st.files, allEx := allEx, allSz := allSz, failing := failing,
          updSet := st.updSet, idx := st.idx, output := st.output, status := .dryStop }
      else
        let ar := applyEngine pr.1 pr.2 st.files
        if ar.2 = [] then
          { files := ar.1, allEx := allEx, allSz := allSz, failing := failing,
            updSet := st.updSet, idx := st.idx, output := st.output, status := .stalled }
        else
          let updSet := dedup (st.updSet ++ ar.2)
          let rr := if failing = [] then (let r := oracle st.idx; (r.1, r.2, st.idx + 1))
                    else run_specific_tests oracle st.idx failing
          if rr.2.1 = 0 then
            { files := ar.1, allEx := allEx, allSz := allSz, failing := failing,
              updSet := updSet, idx := rr.2.2, output := rr.1, status := .converged }
          else
            loop1 dry oracle f
              { output := rr.1, files := ar.1, allEx := allEx, allSz := allSz,
                failing := failing, updSet := updSet, idx := rr.2.2 }

structure Loop2St where
  files : List FileEntry
  allEx : BMap
  allSz : List SizeM
  ncls : List (List Char)
  updSet : List (List Char)
  idx : Nat
  curM : BMap
  curSz : List SizeM

structure Loop2Res where
  files : List FileEntry
  allEx : BMap
  allSz : List SizeM
  updSet : List (List Char)
  idx : Nat

/-- The additional fix-up cycle after a failed final verification
(the second `for iteration in range(25)` block of `main`). -/
def loop2 (oracle : Runner) : Nat → Loop2St → Loop2Res
  | 0, st => { files := st.files, allEx := st.allEx, allSz := st.allSz,
               updSet := st.updSet, idx := st.idx }
  | f + 1, st =>
    let allEx := st.curM.foldl (fun mm e => dictInsert e.1 e.2 mm) st.allEx
    let allSz := st.allSz ++ st.curSz
    let ar := applyEngine st.curM st.curSz st.files
    if ar.2 = [] then
      { files := ar.1, allEx := allEx, allSz := allSz, updSet := st.updSet, idx := st.idx }
    else
      let updSet := dedup (st.updSet ++ ar.2)
      let rr := if st.ncls ≠ [] then run_specific_tests oracle st.idx st.ncls
                else (let r := oracle st.idx; (r.1, r.2, st.idx + 1))
      if rr.2.1 = 0 then
        { files := ar.1, allEx := allEx, allSz := allSz, updSet := updSet, idx := rr.2.2 }
      else
        let pr := parse_failures rr.1
        let ncls' := parse_failing_classes rr.1
        if pr.1 = [] ∧ pr.2 = [] then
          { files := ar.1, allEx := allEx, allSz := allSz, updSet := updSet, idx := rr.2.2 }
        else
          loop2 oracle f
            { files := ar.1, allEx := allEx, allSz := allSz, ncls := ncls',
              updSet := updSet, idx := rr.2.2, curM := pr.1, curSz := pr.2 }

structure MainRes where
  exitCode : Int
  files : List FileEntry
  idx : Nat

/-- `main` from update-budgets.py, over the runner oracle and an in-memory
file system; printing is omitted (the statistics computation is pure). -/
def update_budgets_main (dry : Bool) (oracle : Runner) (files0 : List FileEntry) : MainRes :=
  let r0 := oracle 0
  if r0.2 = 0 then { exitCode := 0, files := files0, idx := 1 }
  else
    let lr := loop1 dry oracle 25
      { output := r0.1, files := files0, allEx := [], allSz := [],
        failing := [], updSet := [], idx := 1 }
    if dry then { exitCode := 0, files := lr.files, idx := lr.idx }
    else
      let r4 := oracle lr.idx
      if r4.2 = 0 then { exitCode := 0, files := lr.files, idx := lr.idx + 1 }
      else
        let pr := parse_failures r4.1
        let ncls := parse_failing_classes r4.1
        if pr.1 ≠ [] ∨ pr.2 ≠ [] then
          let l2 := loop2 oracle 25
            { files := lr.files, allEx := lr.allEx, allSz := lr.allSz, ncls := ncls,
              updSet := lr.updSet, idx := lr.idx + 1, curM := pr.1, curSz := pr.2 }
          let rf := oracle l2.idx
          if rf.2 = 0 then { exitCode := 0, files := l2.files, idx := l2.idx + 1 }
          else { exitCode := 1, files := l2.files, idx := l2.idx + 1 }
        else { exitCode := 1, files := lr.files, idx := lr.idx + 1 }

/-! ## List and string lemmas -/

theorem takeWhile_middle (p : Char → Bool) (xs : List Char) (y : Char) (ys : List Char)
    (hx : ∀ a ∈ xs, p a = true) (hy : p y = false) :
    (xs ++ y :: ys).takeWhile p = xs ∧ (xs ++ y :: ys).dropWhile p = y :: ys := by
  induction xs with
  | nil =>
    simp only [List.nil_append, List.takeWhile_cons, List.dropWhile_cons, hy]
    simp
  | cons a t ih =>
    have ha : p a = true := hx a (List.mem_cons_self a t)
    have iht := ih (fun b hb => hx b (List.mem_cons_of_mem _ hb))
    simp only [List.cons_append, List.takeWhile_cons, List.dropWhile_cons, ha, if_true]
    exact ⟨by rw [iht.1], by rw [iht.2]⟩

theorem matchLit_self (pat l : List Char) : matchLit pat (pat ++ l) = some l := by
  induction pat with
  | nil => rfl
  | cons p ps ih => simp [matchLit, ih]

theorem matchLit_some : ∀ {pat l r : List Char}, matchLit pat l = some r → l = pat ++ r := by
  intro pat
  induction pat with
  | nil =>
    intro l r h
    simp only [matchLit, Option.some_inj] at h
    simp [h]
  | cons p ps ih =>
    intro l r h
    match l with
    | [] => simp [matchLit] at h
    | c :: cs =>
      by_cases hc : c = p
      · subst hc
        simp only [matchLit, if_pos rfl] at h
        rw [List.cons_append, ← ih h]
      · simp [matchLit, hc] at h

theorem matchLit_cons_ne {p : Char} {ps : List Char} {c : Char} {cs : List Char}
    (h : ¬ c = p) : matchLit (p :: ps) (c :: cs) = none := by
  simp [matchLit, h]

/-! `splitNl` / `joinNl`. -/

theorem splitNl_ne_nil (l : List Char) : splitNl l ≠ [] := by
  cases l with
  | nil => simp [splitNl]
  | cons c t =>
    simp only [splitNl]
    by_cases hc : c = '\n'
    · simp [hc]
    · simp only [hc, if_false]
      cases splitNl t <;> simp

theorem joinNl_cons (c : Char) (h : List Char) (r : List (List Char)) :
    joinNl ((c :: h) :: r) = c :: joinNl (h :: r) := by
  cases r with
  | nil => rfl
  | cons y r' => simp [joinNl]

theorem joinNl_splitNl (l : List Char) : joinNl (splitNl l) = l := by
  induction l with
  | nil => rfl
  | cons c t ih =>
    simp only [splitNl]
    by_cases hc : c = '\n'
    · subst hc
      simp only [if_pos rfl]
      cases hs : splitNl t with
      | nil => exact absurd hs (splitNl_ne_nil t)
      | cons h r =>
        rw [hs] at ih
        show joinNl ([] :: h :: r) = '\n' :: t
        rw [joinNl, List.nil_append, ih]
    · simp only [hc, if_false]
      cases hs : splitNl t with
      | nil => exact absurd hs (splitNl_ne_nil t)
      | cons h r =>
        rw [hs] at ih
        simp only []
        rw [joinNl_cons, ih]

theorem splitNl_no_nl (l : List Char) : ∀ x ∈ splitNl l, '\n' ∉ x := by
  induction l with
  | nil =>
    intro x hx
    simp [splitNl] at hx
    simp [hx]
  | cons c t ih =>
    intro x hx
    simp only [splitNl] at hx
    by_cases hc : c = '\n'
    · rw [if_pos hc] at hx
      rcases List.mem_cons.mp hx with h | h
      · simp [h]
      · exact ih x h
    · rw [if_neg hc] at hx
      cases hs : splitNl t with
      | nil => exact absurd hs (splitNl_ne_nil t)
      | cons h r =>
        rw [hs] at hx
        rcases List.mem_cons.mp hx with hh | hh
        · subst hh
          intro hmem
          rcases List.mem_cons.mp hmem with h1 | h1
          · exact hc h1.symm
          · exact ih h (hs ▸ List.mem_cons_self h r) h1
        · exact ih x (hs ▸ List.mem_cons_of_mem h hh)

theorem splitNl_of_no_nl (x : List Char) (hx : '\n' ∉ x) : splitNl x = [x] := by
  induction x with
  | nil => rfl
  | cons c t ih =>
    have hc : ¬ c = '\n' := fun h => hx (h ▸ List.mem_cons_self c t)
    simp only [splitNl, hc, if_false]
    rw [ih (fun h => hx (List.mem_cons_of_mem c h))]

theorem splitNl_prefix (x : List Char) (hx : '\n' ∉ x) (l : List Char) :
    splitNl (x ++ '\n' :: l) = x :: splitNl l := by
  induction x with
  | nil => simp [splitNl]
  | cons a as ih =>
    have ha : ¬ a = '\n' := fun h => hx (h ▸ List.mem_cons_self a as)
    simp only [List.cons_append, splitNl, ha, if_false]
    rw [show as.append ('\n' :: l) = as ++ '\n' :: l from rfl,
      ih (fun h => hx (List.mem_cons_of_mem a h))]

theorem splitNl_joinNl (ls : List (List Char)) (hne : ls ≠ [])
    (h : ∀ x ∈ ls, '\n' ∉ x) : splitNl (joinNl ls) = ls := by
  induction ls with
  | nil => exact absurd rfl hne
  | cons x r ih =>
    cases r with
    | nil => exact splitNl_of_no_nl x (h x (List.mem_cons_self x []))
    | cons y r' =>
      rw [joinNl, splitNl_prefix x (h x (List.mem_cons_self _ _))]
      rw [ih (by simp) (fun z hz => h z (List.mem_cons_of_mem x hz))]

theorem mem_splitNl_decomp (l : List Char) :
    ∀ x ∈ splitNl l, ∃ u v, l = u ++ x ++ v := by
  induction l with
  | nil =>
    intro x hx
    simp [splitNl] at hx
    exact ⟨[], [], by simp [hx]⟩
  | cons c t ih =>
    intro x hx
    simp only [splitNl] at hx
    by_cases hc : c = '\n'
    · rw [if_pos hc] at hx
      rcases List.mem_cons.mp hx with h | h
      · exact ⟨[], c :: t, by simp [h]⟩
      · obtain ⟨u, v, huv⟩ := ih x h
        exact ⟨c :: u, v, by simp [huv]⟩
    · rw [if_neg hc] at hx
      cases hs : splitNl t with
      | nil => exact absurd hs (splitNl_ne_nil t)
      | cons h r =>
        rw [hs] at hx
        rcases List.mem_cons.mp hx with hh | hh
        · subst hh
          have ht : t = joinNl (h :: r) := by rw [← hs, joinNl_splitNl]
          cases r with
          | nil => exact ⟨[], [], by simp [ht, joinNl]⟩
          | cons y r' =>
            refine ⟨[], '\n' :: joinNl (y :: r'), ?_⟩
            rw [ht, joinNl]
            simp
        · obtain ⟨u, v, huv⟩ := ih x (hs ▸ List.mem_cons_of_mem h hh)
          exact ⟨c :: u, v, by simp [huv]⟩

/-! `replaceAll` / `containsSub`. -/

theorem length_pos_of_ne_nil {l : List Char} (h : l ≠ []) : 1 ≤ l.length := by
  cases l with
  | nil => exact absurd rfl h
  | cons _ _ => simp

theorem replaceAllAux_fuel (pat rep : List Char) (hpat : pat ≠ []) :
    ∀ f l g, l.length ≤ f → l.length ≤ g →
      replaceAllAux pat rep f l = replaceAllAux pat rep g l := by
  intro f
  induction f with
  | zero =>
    intro l g hf hg
    have : l = [] := List.length_eq_zero.mp (by omega)
    subst this
    cases g <;> rfl
  | succ f ih =>
    intro l g hf hg
    cases l with
    | nil => cases g <;> rfl
    | cons c t =>
      cases g with
      | zero => simp at hg
      | succ g =>
        have hplen : 1 ≤ pat.length := length_pos_of_ne_nil hpat
        have htf : t.length ≤ f := by
          simp only [List.length_cons] at hf
          omega
        have htg : t.length ≤ g := by
          simp only [List.length_cons] at hg
          omega
        simp only [replaceAllAux]
        by_cases hpre : pat.isPrefixOf (c :: t) = true
        · rw [if_pos hpre, if_pos hpre]
          have hd : ((c :: t).drop pat.length).length ≤ t.length := by
            rw [List.length_drop]
            simp only [List.length_cons]
            omega
          rw [ih _ g (le_trans hd htf) (le_trans hd htg)]
        · rw [if_neg hpre, if_neg hpre, ih t g htf htg]

theorem replaceAll_nil (pat rep : List Char) : replaceAll pat rep [] = [] := rfl

theorem replaceAll_cons_pos (pat rep : List Char) (hpat : pat ≠ []) (c : Char)
    (t : List Char) (hpre : pat.isPrefixOf (c :: t) = true) :
    replaceAll pat rep (c :: t) = rep ++ replaceAll pat rep ((c :: t).drop pat.length) := by
  have h1 : replaceAll pat rep (c :: t) = replaceAllAux pat rep (t.length + 1) (c :: t) := rfl
  rw [h1]
  simp only [replaceAllAux]
  rw [if_pos hpre]
  congr 1
  exact replaceAllAux_fuel pat rep hpat t.length _ _
    (by
      rw [List.length_drop]
      have := length_pos_of_ne_nil hpat
      simp only [List.length_cons]
      omega)
    (le_refl _)

theorem replaceAll_cons_neg (pat rep : List Char) (c : Char) (t : List Char)
    (hpre : ¬ pat.isPrefixOf (c :: t) = true) :
    replaceAll pat rep (c :: t) = c :: replaceAll pat rep t := by
  have h1 : replaceAll pat rep (c :: t) = replaceAllAux pat rep (t.length + 1) (c :: t) := rfl
  rw [h1]
  simp only [replaceAllAux]
  rw [if_neg hpre]
  rfl

theorem replaceAll_of_not_contains (pat rep l : List Char)
    (h : containsSub pat l = false) : replaceAll pat rep l = l := by
  induction l with
  | nil => rfl
  | cons c t ih =>
    simp only [containsSub, Bool.or_eq_false_iff] at h
    rw [replaceAll_cons_neg pat rep c t (by simp [h.1]), ih h.2]

theorem containsSub_of_infix (pat x l : List Char) (hx : containsSub pat x = true)
    (u v : List Char) (hl : l = u ++ x ++ v) : containsSub pat l = true := by
  subst hl
  induction u with
  | nil =>
    simp only [List.nil_append]
    induction x with
    | nil =>
      simp only [containsSub] at hx
      cases v with
      | nil => simpa [containsSub] using hx
      | cons a b =>
        have : pat = [] := by
          cases pat with
          | nil => rfl
          | cons p ps => simp [List.isPrefixOf] at hx
        subst this
        simp [containsSub]
    | cons a b ihb =>
      simp only [containsSub, Bool.or_eq_true] at hx
      rcases hx with hx | hx
      · have : pat <+: (a :: b) := List.isPrefixOf_iff_prefix.mp hx
        obtain ⟨w, hw⟩ := this
        simp only [List.cons_append, containsSub, Bool.or_eq_true]
        left
        apply List.isPrefixOf_iff_prefix.mpr
        exact ⟨w ++ v, by rw [← List.append_assoc, hw]; simp⟩
      · simp only [List.cons_append, containsSub, Bool.or_eq_true]
        right
        exact ihb hx
  | cons a u' ihu =>
    simp only [List.cons_append, containsSub, Bool.or_eq_true]
    right
    exact ihu

theorem mem_replaceAll (pat rep l : List Char) :
    ∀ c ∈ replaceAll pat rep l, c ∈ l ∨ c ∈ rep := by
  suffices h : ∀ f l, ∀ c ∈ replaceAllAux pat rep f l, c ∈ l ∨ c ∈ rep by
    intro c hc
    exact h l.length l c hc
  intro f
  induction f with
  | zero =>
    intro l c hc
    exact Or.inl hc
  | succ f ih =>
    intro l c hc
    cases l with
    | nil => simp [replaceAllAux] at hc
    | cons a t =>
      simp only [replaceAllAux] at hc
      by_cases hpre : pat.isPrefixOf (a :: t) = true
      · rw [if_pos hpre] at hc
        rcases List.mem_append.mp hc with h | h
        · exact Or.inr h
        · rcases ih _ c h with h | h
          · exact Or.inl (List.drop_subset _ _ h)
          · exact Or.inr h
      · rw [if_neg hpre] at hc
        rcases List.mem_cons.mp hc with h | h
        · exact Or.inl (h ▸ List.mem_cons_self a t)
        · rcases ih t c h with h | h
          · exact Or.inl (List.mem_cons_of_mem a h)
          · exact Or.inr h

/-! ## Matcher anatomy

Shape predicates describing the components a successful EXUNITS_RE match
decomposes into. -/

/-- All characters are whitespace. -/
def SpList (l : List Char) : Prop := ∀ c ∈ l, isSpc c = true

/-- A possible consumption of the optional `(?:kw\s*=\s*)?` group. -/
def OptKeyShape (kw mp : List Char) : Prop :=
  mp = [] ∨ ∃ spA spB, mp = kw ++ spA ++ '=' :: spB ∧ SpList spA ∧ SpList spB

/-- A possible capture of `([0-9_]+L?)`. -/
def NumShape (g : List Char) : Prop :=
  ∃ ds, ds ≠ [] ∧ (∀ c ∈ ds, isNumCh c = true) ∧ (g = ds ∨ g = ds ++ ['L'])

theorem bool_fn_ne {f : Char → Bool} {c x : Char} (h : f c = true) (hx : f x = false) :
    ¬ c = x := by
  intro he
  subst he
  rw [h] at hx
  exact Bool.noConfusion hx

theorem mem_takeWhile_sat (p : Char → Bool) :
    ∀ (l : List Char), ∀ c ∈ l.takeWhile p, p c = true := by
  intro l
  induction l with
  | nil => intro c hc; simp at hc
  | cons a t ih =>
    intro c hc
    rw [List.takeWhile_cons] at hc
    by_cases ha : p a = true
    · rw [if_pos ha] at hc
      rcases List.mem_cons.mp hc with h | h
      · exact h ▸ ha
      · exact ih c h
    · rw [if_neg ha] at hc
      simp at hc

theorem digTok_some {l d r : List Char} (h : digTok l = some (d, r)) :
    l = d ++ r ∧ d ≠ [] ∧ (∀ c ∈ d, isDig c = true) := by
  unfold digTok at h
  cases htw : l.takeWhile isDig with
  | nil => rw [htw] at h; exact Option.noConfusion h
  | cons d0 ds =>
    rw [htw] at h
    simp only [Option.some_inj, Prod.mk.injEq] at h
    obtain ⟨hd, hr⟩ := h
    subst hd
    subst hr
    refine ⟨?_, by simp, ?_⟩
    · rw [← htw, List.takeWhile_append_dropWhile]
    · intro c hc
      exact mem_takeWhile_sat isDig l c (htw ▸ hc)

theorem digTok_build (d : List Char) (hne : d ≠ []) (hd : ∀ c ∈ d, isDig c = true)
    (y : Char) (hy : isDig y = false) (ys : List Char) :
    digTok (d ++ y :: ys) = some (d, y :: ys) := by
  obtain ⟨htw, hdw⟩ := takeWhile_middle isDig d y ys hd hy
  unfold digTok
  rw [htw, hdw]
  cases d with
  | nil => exact absurd rfl hne
  | cons d0 ds => rfl

theorem numTok_some {l g r : List Char} (h : numTok l = some (g, r)) :
    l = g ++ r ∧ NumShape g := by
  unfold numTok at h
  cases htw : l.takeWhile isNumCh with
  | nil => rw [htw] at h; exact Option.noConfusion h
  | cons d0 ds =>
    rw [htw] at h
    have hl : l = (d0 :: ds) ++ l.dropWhile isNumCh := by
      rw [← htw, List.takeWhile_append_dropWhile]
    have hall : ∀ c ∈ (d0 :: ds), isNumCh c = true :=
      fun c hc => mem_takeWhile_sat isNumCh l c (htw ▸ hc)
    cases hdw : l.dropWhile isNumCh with
    | nil =>
      rw [hdw] at h
      simp only [] at h
      simp only [Option.some_inj, Prod.mk.injEq] at h
      obtain ⟨hg, hr⟩ := h
      subst hg; subst hr
      exact ⟨by rw [hl, hdw], ⟨d0 :: ds, by simp, hall, Or.inl rfl⟩⟩
    | cons c0 r0 =>
      rw [hdw] at h
      simp only [] at h
      by_cases hc0 : c0 = 'L'
      · rw [if_pos hc0] at h
        simp only [Option.some_inj, Prod.mk.injEq] at h
        obtain ⟨hg, hr⟩ := h
        subst hg; subst hr
        subst hc0
        refine ⟨?_, ⟨d0 :: ds, by simp, hall, Or.inr rfl⟩⟩
        rw [hl, hdw]
        simp
      · rw [if_neg hc0] at h
        simp only [Option.some_inj, Prod.mk.injEq] at h
        obtain ⟨hg, hr⟩ := h
        subst hg; subst hr
        exact ⟨by rw [hl, hdw], ⟨d0 :: ds, by simp, hall, Or.inl rfl⟩⟩

theorem numTok_build (ds : List Char) (hne : ds ≠ []) (hds : ∀ c ∈ ds, isNumCh c = true)
    (optL : List Char) (hL : optL = [] ∨ optL = ['L'])
    (y : Char) (hy : isNumCh y = false) (hyL : ¬ y = 'L') (ys : List Char) :
    numTok (ds ++ optL ++ y :: ys) = some (ds ++ optL, y :: ys) := by
  rcases hL with hL | hL
  · subst hL
    simp only [List.append_nil]
    obtain ⟨htw, hdw⟩ := takeWhile_middle isNumCh ds y ys hds hy
    unfold numTok
    rw [htw, hdw]
    cases ds with
    | nil => exact absurd rfl hne
    | cons d0 ds' => simp [hyL]
  · subst hL
    have hshape : ds ++ ['L'] ++ y :: ys = ds ++ 'L' :: y :: ys := by simp
    rw [hshape]
    obtain ⟨htw, hdw⟩ := takeWhile_middle isNumCh ds 'L' (y :: ys) hds (by decide)
    unfold numTok
    rw [htw, hdw]
    cases ds with
    | nil => exact absurd rfl hne
    | cons d0 ds' => simp

theorem NumShape_head {g : List Char} (h : NumShape g) :
    ∃ d0 g', g = d0 :: g' ∧ isNumCh d0 = true ∧ (∀ c ∈ g, isNumCh c = true ∨ c = 'L') := by
  obtain ⟨ds, hne, hall, hor⟩ := h
  cases ds with
  | nil => exact absurd rfl hne
  | cons d0 ds' =>
    have hd0 : isNumCh d0 = true := hall d0 (List.mem_cons_self _ _)
    rcases hor with hg | hg
    · subst hg
      exact ⟨d0, ds', rfl, hd0, fun c hc => Or.inl (hall c hc)⟩
    · subst hg
      refine ⟨d0, ds' ++ ['L'], by simp, hd0, ?_⟩
      intro c hc
      rcases List.mem_append.mp hc with hc | hc
      · exact Or.inl (hall c hc)
      · simp at hc
        exact Or.inr hc

theorem optKeyEq_spec (kw l : List Char) :
    (optKeyEq kw l).1 ++ (optKeyEq kw l).2 = l ∧ OptKeyShape kw (optKeyEq kw l).1 := by
  unfold optKeyEq
  cases hm : matchLit kw l with
  | none => exact ⟨rfl, Or.inl rfl⟩
  | some l1 =>
    have hl : l = kw ++ l1 := matchLit_some hm
    simp only []
    cases hdw : l1.dropWhile isSpc with
    | nil => exact ⟨rfl, Or.inl rfl⟩
    | cons c0 l3 =>
      simp only []
      by_cases hc0 : c0 = '='
      · rw [if_pos hc0]
        subst hc0
        constructor
        · show kw ++ l1.takeWhile isSpc ++ '=' :: l3.takeWhile isSpc ++ l3.dropWhile isSpc = l
          have h2 : l1 = l1.takeWhile isSpc ++ '=' :: l3 := by
            rw [← hdw, List.takeWhile_append_dropWhile]
          have h3 : l3.takeWhile isSpc ++ l3.dropWhile isSpc = l3 :=
            List.takeWhile_append_dropWhile isSpc l3
          conv_rhs => rw [hl, h2, ← h3]
          simp
        · exact Or.inr ⟨l1.takeWhile isSpc, l3.takeWhile isSpc, rfl,
            fun c hc => mem_takeWhile_sat isSpc l1 c hc,
            fun c hc => mem_takeWhile_sat isSpc l3 c hc⟩
      · rw [if_neg hc0]
        exact ⟨rfl, Or.inl rfl⟩

theorem optKeyEq_build_none (kw : List Char) (k0 : Char) (kt : List Char) (hkw : kw = k0 :: kt)
    (c : Char) (hc : ¬ c = k0) (cs : List Char) : optKeyEq kw (c :: cs) = ([], c :: cs) := by
  unfold optKeyEq
  rw [hkw, matchLit_cons_ne hc]

theorem numCh_not_spc {c : Char} (h : isNumCh c = true) : isSpc c = false := by
  simp only [isNumCh, isDig, Bool.or_eq_true, Bool.and_eq_true, decide_eq_true_eq] at h
  simp only [isSpc, Bool.or_eq_false_iff, decide_eq_false_iff_not]
  omega

theorem spc_not_numCh {c : Char} (h : isSpc c = true) : isNumCh c = false := by
  simp only [isSpc, Bool.or_eq_true, decide_eq_true_eq] at h
  simp only [isNumCh, isDig, Bool.or_eq_false_iff, Bool.and_eq_false_iff,
    decide_eq_false_iff_not]
  omega

theorem optKeyEq_build_some (kw spA spB : List Char)
    (hA : SpList spA) (hB : SpList spB)
    (y : Char) (hy : isSpc y = false) (ys : List Char) :
    optKeyEq kw (kw ++ spA ++ '=' :: spB ++ y :: ys) = (kw ++ spA ++ '=' :: spB, y :: ys) := by
  unfold optKeyEq
  have h1 : kw ++ spA ++ '=' :: spB ++ y :: ys = kw ++ (spA ++ '=' :: (spB ++ y :: ys)) := by
    simp
  rw [h1, matchLit_self]
  simp only []
  obtain ⟨htwA, hdwA⟩ := takeWhile_middle isSpc spA '=' (spB ++ y :: ys) hA (by decide)
  rw [htwA, hdwA]
  simp only [if_true]
  obtain ⟨htwB, hdwB⟩ := takeWhile_middle isSpc spB y ys hB hy
  rw [htwB, hdwB]

theorem head_of_shape (kw mp g : List Char) (k0 : Char) (kt : List Char)
    (hkw : kw = k0 :: kt) (hk0 : isSpc k0 = false)
    (hmp : OptKeyShape kw mp) (hg : NumShape g) (rest : List Char) :
    ∃ y ys, mp ++ (g ++ rest) = y :: ys ∧ isSpc y = false := by
  obtain ⟨d0, g', hgeq, hd0, _⟩ := NumShape_head hg
  rcases hmp with hmp | ⟨spA, spB, hmpeq, _, _⟩
  · subst hmp
    exact ⟨d0, g' ++ rest, by rw [hgeq]; simp, numCh_not_spc hd0⟩
  · subst hmpeq
    rw [hkw]
    exact ⟨k0, (kt ++ spA ++ '=' :: spB) ++ (g ++ rest), by simp, hk0⟩

theorem optKeyEq_shape (kw mp : List Char) (k0 : Char) (kt : List Char)
    (hkw : kw = k0 :: kt) (hmp : OptKeyShape kw mp)
    (d : Char) (hd_spc : isSpc d = false) (hd_k : ¬ d = k0) (rest' : List Char) :
    optKeyEq kw (mp ++ d :: rest') = (mp, d :: rest') := by
  rcases hmp with hmp | ⟨spA, spB, hmpeq, hA, hB⟩
  · subst hmp
    simp only [List.nil_append]
    exact optKeyEq_build_none kw k0 kt hkw d hd_k rest'
  · subst hmpeq
    have h1 : (kw ++ spA ++ '=' :: spB) ++ d :: rest' = kw ++ spA ++ '=' :: spB ++ d :: rest' := by
      simp
    rw [h1]
    exact optKeyEq_build_some kw spA spB hA hB d hd_spc rest'

theorem numTok_shape (g spN : List Char) (hg : NumShape g) (hspN : SpList spN)
    (z : Char) (hz1 : isNumCh z = false) (hz2 : ¬ z = 'L') (rest' : List Char) :
    numTok (g ++ (spN ++ z :: rest')) = some (g, spN ++ z :: rest') := by
  obtain ⟨ds, hne, hall, hor⟩ := hg
  cases hsp : spN with
  | nil =>
    rcases hor with hgor | hgor
    · rw [hgor]
      have := numTok_build ds hne hall [] (Or.inl rfl) z hz1 hz2 rest'
      simpa using this
    · rw [hgor]
      have := numTok_build ds hne hall ['L'] (Or.inr rfl) z hz1 hz2 rest'
      simpa using this
  | cons s0 spN' =>
    subst hsp
    have hs0 : isSpc s0 = true := hspN s0 (List.mem_cons_self _ _)
    have h1 : g ++ (s0 :: spN' ++ z :: rest') = g ++ s0 :: (spN' ++ z :: rest') := by simp
    rw [h1]
    rcases hor with hgor | hgor
    · rw [hgor]
      have := numTok_build ds hne hall [] (Or.inl rfl) s0 (spc_not_numCh hs0)
        (bool_fn_ne hs0 (by decide)) (spN' ++ z :: rest')
      simpa using this
    · rw [hgor]
      have := numTok_build ds hne hall ['L'] (Or.inr rfl) s0 (spc_not_numCh hs0)
        (bool_fn_ne hs0 (by decide)) (spN' ++ z :: rest')
      simpa using this

theorem exHalf (kw : List Char) (k0 : Char) (kt : List Char) (hkw : kw = k0 :: kt)
    (hk0 : isNumCh k0 = false)
    (mp g spN : List Char) (hmp : OptKeyShape kw mp) (hg : NumShape g) (hspN : SpList spN)
    (z : Char) (hz_num : isNumCh z = false) (hzL : ¬ z = 'L') (hz_spc : isSpc z = false)
    (rest' : List Char) :
    optKeyEq kw (mp ++ (g ++ (spN ++ z :: rest'))) = (mp, g ++ (spN ++ z :: rest')) ∧
    numTok (g ++ (spN ++ z :: rest')) = some (g, spN ++ z :: rest') ∧
    (spN ++ z :: rest').takeWhile isSpc = spN ∧
    (spN ++ z :: rest').dropWhile isSpc = z :: rest' := by
  obtain ⟨d0, g', hgeq, hd0, _⟩ := NumShape_head hg
  obtain ⟨htwN, hdwN⟩ := takeWhile_middle isSpc spN z rest' hspN hz_spc
  refine ⟨?_, numTok_shape g spN hg hspN z hz_num hzL rest', htwN, hdwN⟩
  have h1 : mp ++ (g ++ (spN ++ z :: rest')) = mp ++ d0 :: (g' ++ (spN ++ z :: rest')) := by
    rw [hgeq]
    simp
  rw [h1, optKeyEq_shape kw mp k0 kt hkw hmp d0 (numCh_not_spc hd0)
    (bool_fn_ne hd0 hk0) (g' ++ (spN ++ z :: rest'))]
  rw [hgeq]
  simp

/-- Determinacy/construction lemma for EXUNITS_RE: any well-shaped literal
followed by anything matches as exactly that literal, with the two number
groups as captures. -/
theorem tryMatchEx_build
    (sp1 mp g1 sp2 sp3 sg g2 sp4 x : List Char)
    (hsp1 : SpList sp1) (hsp2 : SpList sp2) (hsp3 : SpList sp3) (hsp4 : SpList sp4)
    (hmp : OptKeyShape litMemory mp) (hsg : OptKeyShape litSteps sg)
    (hg1 : NumShape g1) (hg2 : NumShape g2) :
    tryMatchEx ((litExUnits ++ sp1 ++ mp ++ g1 ++ sp2 ++
      ',' :: (sp3 ++ sg ++ g2 ++ sp4 ++ [')'])) ++ x) =
    some (litExUnits ++ sp1 ++ mp ++ g1 ++ sp2 ++ ',' :: (sp3 ++ sg ++ g2 ++ sp4 ++ [')']),
      g1, g2, x) := by
  have hkwm : litMemory = 'm' :: s2l "emory" := rfl
  have hkws : litSteps = 's' :: s2l "teps" := rfl
  obtain ⟨ho1, hn1, ht1, hd1⟩ := exHalf litMemory 'm' (s2l "emory") hkwm (by decide)
    mp g1 sp2 hmp hg1 hsp2 ',' (by decide) (by decide) (by decide)
    (sp3 ++ (sg ++ (g2 ++ (sp4 ++ ')' :: x))))
  obtain ⟨ho2, hn2, ht2, hd2⟩ := exHalf litSteps 's' (s2l "teps") hkws (by decide)
    sg g2 sp4 hsg hg2 hsp4 ')' (by decide) (by decide) (by decide) x
  unfold tryMatchEx
  have hin : (litExUnits ++ sp1 ++ mp ++ g1 ++ sp2 ++
      ',' :: (sp3 ++ sg ++ g2 ++ sp4 ++ [')'])) ++ x =
      litExUnits ++ (sp1 ++ (mp ++ (g1 ++ (sp2 ++
        ',' :: (sp3 ++ (sg ++ (g2 ++ (sp4 ++ ')' :: x)))))))) := by
    simp
  rw [hin, matchLit_self]
  simp only []
  obtain ⟨y, ys, hys, hyspc⟩ := head_of_shape litMemory mp g1 'm' (s2l "emory") hkwm
    (by decide) hmp hg1 (sp2 ++ ',' :: (sp3 ++ (sg ++ (g2 ++ (sp4 ++ ')' :: x)))))
  obtain ⟨htw1, hdw1⟩ := takeWhile_middle isSpc sp1 y ys hsp1 hyspc
  rw [hys, htw1, hdw1, ← hys, ho1]
  simp only []
  rw [hn1]
  simp only []
  rw [ht1, hd1]
  simp only [if_true]
  obtain ⟨y2, ys2, hys2, hys2pc⟩ := head_of_shape litSteps sg g2 's' (s2l "teps") hkws
    (by decide) hsg hg2 (sp4 ++ ')' :: x)
  obtain ⟨htw3, hdw3⟩ := takeWhile_middle isSpc sp3 y2 ys2 hsp3 hys2pc
  rw [hys2, htw3, hdw3, ← hys2, ho2]
  simp only []
  rw [hn2]
  simp only []
  rw [ht2, hd2]
  simp only [if_true]

/-- Inversion for EXUNITS_RE: a successful match decomposes the input into
the canonical literal shape followed by the rest. -/
theorem tryMatchEx_decomp {l w g1 g2 r : List Char}
    (h : tryMatchEx l = some (w, g1, g2, r)) :
    l = w ++ r ∧
    ∃ sp1 mp sp2 sp3 sg sp4,
      w = litExUnits ++ sp1 ++ mp ++ g1 ++ sp2 ++ ',' :: (sp3 ++ sg ++ g2 ++ sp4 ++ [')']) ∧
      SpList sp1 ∧ SpList sp2 ∧ SpList sp3 ∧ SpList sp4 ∧
      OptKeyShape litMemory mp ∧ OptKeyShape litSteps sg ∧
      NumShape g1 ∧ NumShape g2 := by
  unfold tryMatchEx at h
  cases hm : matchLit litExUnits l with
  | none => rw [hm] at h; exact Option.noConfusion h
  | some l1 =>
    rw [hm] at h
    simp only [] at h
    cases hnt : numTok (optKeyEq litMemory (l1.dropWhile isSpc)).2 with
    | none => rw [hnt] at h; exact Option.noConfusion h
    | some p1 =>
      obtain ⟨g1v, l4⟩ := p1
      rw [hnt] at h
      simp only [] at h
      cases hdw4 : l4.dropWhile isSpc with
      | nil => rw [hdw4] at h; exact Option.noConfusion h
      | cons c5 l5 =>
        rw [hdw4] at h
        simp only [] at h
        by_cases hc5 : c5 = ','
        case neg => rw [if_neg hc5] at h; exact Option.noConfusion h
        rw [if_pos hc5] at h
        subst hc5
        cases hnt2 : numTok (optKeyEq litSteps (l5.dropWhile isSpc)).2 with
        | none => rw [hnt2] at h; exact Option.noConfusion h
        | some p2 =>
          obtain ⟨g2v, l8⟩ := p2
          rw [hnt2] at h
          simp only [] at h
          cases hdw8 : l8.dropWhile isSpc with
          | nil => rw [hdw8] at h; exact Option.noConfusion h
          | cons c9 l9 =>
            rw [hdw8] at h
            simp only [] at h
            by_cases hc9 : c9 = ')'
            case neg => rw [if_neg hc9] at h; exact Option.noConfusion h
            rw [if_pos hc9] at h
            subst hc9
            simp only [Option.some_inj, Prod.mk.injEq] at h
            obtain ⟨hw, hg1v, hg2v, hr⟩ := h
            subst hg1v; subst hg2v; subst hr; subst hw
            have hl : l = litExUnits ++ l1 := matchLit_some hm
            obtain ⟨hmg_app, hmg_shape⟩ := optKeyEq_spec litMemory (l1.dropWhile isSpc)
            obtain ⟨hnt_app, hnt_shape⟩ := numTok_some hnt
            obtain ⟨hsg_app, hsg_shape⟩ := optKeyEq_spec litSteps (l5.dropWhile isSpc)
            obtain ⟨hnt2_app, hnt2_shape⟩ := numTok_some hnt2
            constructor
            · rw [hl]
              have e1 : l1 = l1.takeWhile isSpc ++ l1.dropWhile isSpc :=
                (List.takeWhile_append_dropWhile isSpc l1).symm
              have e2 : l4 = l4.takeWhile isSpc ++ ',' :: l5 := by
                rw [← hdw4, List.takeWhile_append_dropWhile]
              have e3 : l5 = l5.takeWhile isSpc ++ l5.dropWhile isSpc :=
                (List.takeWhile_append_dropWhile isSpc l5).symm
              have e4 : l8 = l8.takeWhile isSpc ++ ')' :: l9 := by
                rw [← hdw8, List.takeWhile_append_dropWhile]
              conv_lhs => rw [e1, ← hmg_app, hnt_app, e2, e3, ← hsg_app, hnt2_app, e4]
              simp
            · refine ⟨l1.takeWhile isSpc, _, l4.takeWhile isSpc, l5.takeWhile isSpc, _,
                l8.takeWhile isSpc, rfl,
                fun c hc => mem_takeWhile_sat isSpc l1 c hc,
                fun c hc => mem_takeWhile_sat isSpc l4 c hc,
                fun c hc => mem_takeWhile_sat isSpc l5 c hc,
                fun c hc => mem_takeWhile_sat isSpc l8 c hc,
                hmg_shape, hsg_shape, hnt_shape, hnt2_shape⟩

theorem not_E_of_optKeyShape {kw mp : List Char} (hkw : 'E' ∉ kw)
    (h : OptKeyShape kw mp) : 'E' ∉ mp := by
  rcases h with h | ⟨spA, spB, heq, hA, hB⟩
  · subst h; simp
  · subst heq
    intro hmem
    simp only [List.append_assoc, List.mem_append, List.mem_cons] at hmem
    rcases hmem with h | h | h | h
    · exact hkw h
    · exact bool_fn_ne (hA 'E' h) (by decide) rfl
    · exact absurd h (by decide)
    · exact bool_fn_ne (hB 'E' h) (by decide) rfl

theorem not_E_of_NumShape {g : List Char} (h : NumShape g) : 'E' ∉ g := by
  obtain ⟨_, _, _, _, hall⟩ := NumShape_head h
  intro hmem
  rcases hall 'E' hmem with h | h
  · exact Bool.noConfusion ((by decide : isNumCh 'E' = false).symm.trans h)
  · exact absurd h (by decide)

theorem not_E_of_SpList {l : List Char} (h : SpList l) : 'E' ∉ l := by
  intro hmem
  exact bool_fn_ne (h 'E' hmem) (by decide) rfl

/-- The matched whole of EXUNITS_RE starts with `'E'` and contains no other
`'E'`: this is what makes replaced literals inert under a second scan. -/
theorem tryMatchEx_shape_E
    (sp1 mp g1 sp2 sp3 sg g2 sp4 : List Char)
    (hsp1 : SpList sp1) (hsp2 : SpList sp2) (hsp3 : SpList sp3) (hsp4 : SpList sp4)
    (hmp : OptKeyShape litMemory mp) (hsg : OptKeyShape litSteps sg)
    (hg1 : NumShape g1) (hg2 : NumShape g2) :
    ∃ w', litExUnits ++ sp1 ++ mp ++ g1 ++ sp2 ++ ',' :: (sp3 ++ sg ++ g2 ++ sp4 ++ [')'])
      = 'E' :: w' ∧ 'E' ∉ w' := by
  have hE : litExUnits = 'E' :: s2l "xUnits(" := rfl
  refine ⟨s2l "xUnits(" ++ sp1 ++ mp ++ g1 ++ sp2 ++ ',' :: (sp3 ++ sg ++ g2 ++ sp4 ++ [')']),
    by rw [hE]; simp, ?_⟩
  intro hmem
  simp only [List.append_assoc, List.mem_append, List.mem_cons] at hmem
  rcases hmem with h | h | h | h | h | h | h | h | h | h | h
  · exact absurd h (by decide)
  · exact not_E_of_SpList hsp1 h
  · exact not_E_of_optKeyShape (by decide) hmp h
  · exact not_E_of_NumShape hg1 h
  · exact not_E_of_SpList hsp2 h
  · exact absurd h (by decide)
  · exact not_E_of_SpList hsp3 h
  · exact not_E_of_optKeyShape (by decide) hsg h
  · exact not_E_of_NumShape hg2 h
  · exact not_E_of_SpList hsp4 h
  · exact absurd h (by decide)

/-- All consequences of a successful EXUNITS_RE match used below. -/
theorem tryMatchEx_some_facts {l w g1 g2 r : List Char}
    (h : tryMatchEx l = some (w, g1, g2, r)) :
    l = w ++ r ∧ (∀ x, tryMatchEx (w ++ x) = some (w, g1, g2, x)) ∧
    (∃ w', w = 'E' :: w' ∧ 'E' ∉ w') := by
  obtain ⟨hl, sp1, mp, sp2, sp3, sg, sp4, hw, hsp1, hsp2, hsp3, hsp4, hmp, hsg, hg1, hg2⟩ :=
    tryMatchEx_decomp h
  refine ⟨hl, ?_, ?_⟩
  · intro x
    rw [hw]
    exact tryMatchEx_build sp1 mp g1 sp2 sp3 sg g2 sp4 x hsp1 hsp2 hsp3 hsp4 hmp hsg hg1 hg2
  · rw [hw]
    exact tryMatchEx_shape_E sp1 mp g1 sp2 sp3 sg g2 sp4 hsp1 hsp2 hsp3 hsp4 hmp hsg hg1 hg2

theorem tryMatchEx_consume {l w g1 g2 r : List Char}
    (h : tryMatchEx l = some (w, g1, g2, r)) : r.length < l.length := by
  obtain ⟨hl, _, ⟨w', hw, _⟩⟩ := tryMatchEx_some_facts h
  rw [hl, hw]
  simp only [List.cons_append, List.length_cons, List.length_append]
  omega

theorem tryMatchEx_none_of_ne_E {c : Char} {t : List Char} (hc : ¬ c = 'E') :
    tryMatchEx (c :: t) = none := by
  cases h : tryMatchEx (c :: t) with
  | none => rfl
  | some q =>
    obtain ⟨w, g1, g2, r⟩ := q
    obtain ⟨hl, _, ⟨w', hw, _⟩⟩ := tryMatchEx_some_facts h
    rw [hw, List.cons_append] at hl
    exact absurd (List.head_eq_of_cons_eq hl) hc

/-! `exSub` scan equations. -/

theorem exSubAux_fuel (m : BMap) :
    ∀ f l g, l.length ≤ f → l.length ≤ g → exSubAux m f l = exSubAux m g l := by
  intro f
  induction f with
  | zero =>
    intro l g hf hg
    have : l = [] := List.length_eq_zero.mp (by omega)
    subst this
    cases g <;> rfl
  | succ f ih =>
    intro l g hf hg
    cases l with
    | nil => cases g <;> rfl
    | cons c t =>
      cases g with
      | zero => simp at hg
      | succ g =>
        have htf : t.length ≤ f := by simp only [List.length_cons] at hf; omega
        have htg : t.length ≤ g := by simp only [List.length_cons] at hg; omega
        simp only [exSubAux]
        cases hmt : tryMatchEx (c :: t) with
        | none =>
          simp only []
          rw [ih t g htf htg]
        | some q =>
          obtain ⟨w, g1, g2, r⟩ := q
          simp only []
          have hcons := tryMatchEx_consume hmt
          simp only [List.length_cons] at hcons
          rw [ih r g (by omega) (by omega)]

theorem exSub_nil (m : BMap) : exSub m [] = [] := rfl

theorem exSub_cons_none (m : BMap) (c : Char) (t : List Char)
    (h : tryMatchEx (c :: t) = none) : exSub m (c :: t) = c :: exSub m t := by
  have h1 : exSub m (c :: t) = exSubAux m (t.length + 1) (c :: t) := rfl
  rw [h1]
  simp only [exSubAux, h]
  rfl

theorem exSub_match (m : BMap) {l w g1 g2 r : List Char}
    (h : tryMatchEx l = some (w, g1, g2, r)) :
    exSub m l = exReplacer m w g1 g2 ++ exSub m r := by
  obtain ⟨hl, _, ⟨w', hw, _⟩⟩ := tryMatchEx_some_facts h
  cases hc : l with
  | nil =>
    rw [hc, hw, List.cons_append] at hl
    exact absurd hl.symm (by simp)
  | cons c t =>
    rw [hc] at h hl
    have hcons : r.length ≤ t.length := by
      have := tryMatchEx_consume h
      simp only [List.length_cons] at this
      omega
    have h1 : exSub m (c :: t) = exSubAux m (t.length + 1) (c :: t) := rfl
    rw [h1]
    simp only [exSubAux, h]
    rw [exSubAux_fuel m t.length r r.length hcons (le_refl _)]
    rfl

/-! ## Idempotence of the paired replacement -/

theorem isNumCh_of_isDig {c : Char} (h : isDig c = true) : isNumCh c = true := by
  simp [isNumCh, h]

theorem fmtCore_ne_nil (n : Nat) : fmtCore n ≠ [] := by
  unfold fmtCore
  by_cases h7 : 7 ≤ (natStr n).length
  · simp only [h7, if_true]
    simp
  · simp only [h7, if_false]
    exact natStr_ne_nil n

theorem fmtCore_all_numCh (n : Nat) : ∀ c ∈ fmtCore n, isNumCh c = true := by
  intro c hc
  unfold fmtCore at hc
  by_cases h7 : 7 ≤ (natStr n).length
  · simp only [h7, if_true] at hc
    rcases List.mem_append.mp hc with h | h
    · exact isNumCh_of_isDig (natStr_all_dig n c (List.take_subset _ _ h))
    · rcases List.mem_cons.mp h with h | h
      · subst h; decide
      · exact isNumCh_of_isDig (natStr_all_dig n c (List.drop_subset _ _ h))
  · simp only [h7, if_false] at hc
    exact isNumCh_of_isDig (natStr_all_dig n c hc)

theorem NumShape_fmt_num (n : Nat) : NumShape (fmt_num n) := by
  refine ⟨fmtCore n, fmtCore_ne_nil n, fmtCore_all_numCh n, ?_⟩
  unfold fmt_num
  by_cases hL : INT_MAX < n
  · simp [hL]
  · simp [hL]

theorem SpList_nil : SpList [] := fun c hc => absurd hc (List.not_mem_nil c)

theorem SpList_space : SpList [' '] := by
  intro c hc
  simp only [List.mem_singleton] at hc
  subst hc
  decide

/-- A canonically formatted literal, followed by anything, matches as itself
with its two formatted numbers as the captures. -/
theorem tryMatchEx_fmt (a b : Nat) (x : List Char) :
    tryMatchEx (fmt_exunits a b ++ x) = some (fmt_exunits a b, fmt_num a, fmt_num b, x) := by
  have hmp : OptKeyShape litMemory (s2l "memory = ") :=
    Or.inr ⟨[' '], [' '], by decide, SpList_space, SpList_space⟩
  have hsg : OptKeyShape litSteps (s2l "steps = ") :=
    Or.inr ⟨[' '], [' '], by decide, SpList_space, SpList_space⟩
  have hb := tryMatchEx_build [] (s2l "memory = ") (fmt_num a) [] [' '] (s2l "steps = ")
    (fmt_num b) [] x SpList_nil SpList_nil SpList_space SpList_nil hmp hsg
    (NumShape_fmt_num a) (NumShape_fmt_num b)
  have e1 : s2l "ExUnits(memory = " = litExUnits ++ s2l "memory = " := rfl
  have e2 : s2l ", steps = " = ',' :: ' ' :: s2l "steps = " := rfl
  have heq : fmt_exunits a b = litExUnits ++ [] ++ s2l "memory = " ++ fmt_num a ++ [] ++
      ',' :: ([' '] ++ s2l "steps = " ++ fmt_num b ++ [] ++ [')']) := by
    unfold fmt_exunits
    rw [e1, e2]
    simp
  rw [heq]
  exact hb

/-- Structure of the scan output: it is either the input itself, or the
unchanged prefix followed by a block starting with `'E'`. -/
theorem exSub_decomp_blocks (m : BMap) (t : List Char) :
    exSub m t = t ∨ ∃ n R S, n ≤ t.length ∧
      exSub m t = t.take n ++ ('E' :: R) ++ S := by
  suffices H : ∀ f (t : List Char), t.length ≤ f → exSub m t = t ∨ ∃ n R S, n ≤ t.length ∧
      exSub m t = t.take n ++ ('E' :: R) ++ S by
    exact H t.length t (le_refl _)
  intro f
  induction f with
  | zero =>
    intro t ht
    have : t = [] := List.length_eq_zero.mp (by omega)
    subst this
    exact Or.inl rfl
  | succ f ih =>
    intro t ht
    cases t with
    | nil => exact Or.inl rfl
    | cons c t' =>
      cases hmt : tryMatchEx (c :: t') with
      | none =>
        rw [exSub_cons_none m c t' hmt]
        rcases ih t' (by simp only [List.length_cons] at ht; omega) with h | ⟨n, R, S, hn, hsub⟩
        · exact Or.inl (by rw [h])
        · refine Or.inr ⟨n + 1, R, S, by simp only [List.length_cons]; omega, ?_⟩
          rw [hsub]
          simp
      | some q =>
        obtain ⟨w, g1, g2, r⟩ := q
        rw [exSub_match m hmt]
        obtain ⟨_, _, ⟨w', hw, _⟩⟩ := tryMatchEx_some_facts hmt
        have hrep : exReplacer m w g1 g2 = w ∨
            ∃ v : Cost, exReplacer m w g1 g2 = fmt_exunits v.1 v.2 := by
          unfold exReplacer
          cases lookupB (strip_num g1, strip_num g2) m with
          | none => exact Or.inl rfl
          | some v => exact Or.inr ⟨v, rfl⟩
        rcases hrep with hrep | ⟨v, hrep⟩
        · refine Or.inr ⟨0, w', exSub m r, by omega, ?_⟩
          rw [hrep, hw]
          simp
        · refine Or.inr ⟨0, s2l "xUnits(memory = " ++ fmt_num v.1 ++ s2l ", steps = " ++
            fmt_num v.2 ++ [')'], exSub m r, by omega, ?_⟩
          have hfmtE : fmt_exunits v.1 v.2 = 'E' :: (s2l "xUnits(memory = " ++ fmt_num v.1 ++
              s2l ", steps = " ++ fmt_num v.2 ++ [')']) := rfl
          rw [hrep, hfmtE]
          simp

/-- If the head of a text carries no match, it still carries none after the
tail has been rewritten: a rewrite only produces blocks starting with `'E'`,
and a match contains `'E'` only as its very first character. -/
theorem exSub_head_none (m : BMap) (c : Char) (t : List Char)
    (h : tryMatchEx (c :: t) = none) : tryMatchEx (c :: exSub m t) = none := by
  by_cases hc : c = 'E'
  case neg => exact tryMatchEx_none_of_ne_E hc
  subst hc
  cases hmatch : tryMatchEx ('E' :: exSub m t) with
  | none => rfl
  | some q =>
    obtain ⟨w, g1, g2, r⟩ := q
    obtain ⟨hl2, hext, ⟨w', hw, hEnotin⟩⟩ := tryMatchEx_some_facts hmatch
    rcases exSub_decomp_blocks m t with hsub | ⟨n, R, S, hn, hsub⟩
    · rw [hsub] at hl2
      have hcontr : tryMatchEx ('E' :: t) = some (w, g1, g2, r) := by
        rw [hl2]
        exact hext r
      rw [h] at hcontr
      exact Option.noConfusion hcontr
    · exfalso
      rw [hsub] at hl2
      have hlentake : (t.take n).length = n := by
        rw [List.length_take]
        omega
      by_cases hlen : w.length ≤ n + 1
      · -- w is a prefix of 'E' :: t.take n, hence of 'E' :: t
        obtain ⟨k, hwl⟩ : ∃ k, w.length = k + 1 := by
          rw [hw]
          exact ⟨w'.length, by simp⟩
        have hk : k ≤ n := by omega
        have h1 : w = List.take w.length ('E' :: (List.take n t ++ 'E' :: R ++ S)) := by
          rw [hl2, List.take_append_of_le_length (le_refl w.length), List.take_length]
        have h2 : List.take w.length ('E' :: (List.take n t ++ 'E' :: R ++ S)) =
            List.take w.length ('E' :: t) := by
          rw [hwl]
          simp only [List.take_succ_cons]
          congr 1
          rw [List.append_assoc, List.take_append_of_le_length (by rw [hlentake]; exact hk),
            List.take_take, min_eq_left hk]
        have hx : 'E' :: t = w ++ List.drop w.length ('E' :: t) := by
          conv_lhs => rw [← List.take_append_drop w.length ('E' :: t)]
          rw [← h2, ← h1]
        have hcontr := hext (List.drop w.length ('E' :: t))
        rw [← hx, h] at hcontr
        exact Option.noConfusion hcontr
      · -- the 'E' opening the rewritten block sits inside w's tail
        have hgetl : ('E' :: (List.take n t ++ 'E' :: R ++ S))[n + 1]? = some 'E' := by
          rw [List.getElem?_cons_succ, List.append_assoc,
            List.getElem?_append_right (by omega)]
          simp [hlentake]
        rw [hl2, List.getElem?_append, if_pos (by omega), hw,
          List.getElem?_cons_succ] at hgetl
        have hmem : 'E' ∈ w' := by
          have h1 : n < w'.length := by
            have := congrArg List.length hw
            simp only [List.length_cons] at this
            omega
          rw [List.getElem?_eq_getElem h1] at hgetl
          have h2 := Option.some_inj.mp hgetl
          rw [← h2]
          exact List.getElem_mem h1
        exact hEnotin hmem

/-- **Idempotence of the paired replacement** when no mapping value is also
a mapping key: a second scan leaves the once-rewritten text unchanged. -/
theorem exSub_idem (m : BMap)
    (hK : ∀ p q, lookupB p m = some q → lookupB q m = none) (t : List Char) :
    exSub m (exSub m t) = exSub m t := by
  suffices H : ∀ f (t : List Char), t.length ≤ f → exSub m (exSub m t) = exSub m t by
    exact H t.length t (le_refl _)
  intro f
  induction f with
  | zero =>
    intro t hlen
    have : t = [] := List.length_eq_zero.mp (by omega)
    subst this
    rfl
  | succ f ih =>
    intro t hlen
    cases t with
    | nil => rfl
    | cons c t' =>
      cases hmt : tryMatchEx (c :: t') with
      | none =>
        rw [exSub_cons_none m c t' hmt]
        have hnone := exSub_head_none m c t' hmt
        rw [exSub_cons_none m c (exSub m t') hnone,
          ih t' (by simp only [List.length_cons] at hlen; omega)]
      | some q =>
        obtain ⟨w, g1, g2, r⟩ := q
        rw [exSub_match m hmt]
        obtain ⟨hl, hext, _⟩ := tryMatchEx_some_facts hmt
        have hrlen : r.length ≤ f := by
          have := tryMatchEx_consume hmt
          simp only [List.length_cons] at hlen this
          omega
        unfold exReplacer
        cases hlook : lookupB (strip_num g1, strip_num g2) m with
        | none =>
          have hm2 : tryMatchEx (w ++ exSub m r) = some (w, g1, g2, exSub m r) := hext _
          rw [exSub_match m hm2]
          unfold exReplacer
          rw [hlook, ih r hrlen]
        | some v =>
          have hm2 : tryMatchEx (fmt_exunits v.1 v.2 ++ exSub m r) =
              some (fmt_exunits v.1 v.2, fmt_num v.1, fmt_num v.2, exSub m r) :=
            tryMatchEx_fmt v.1 v.2 _
          rw [exSub_match m hm2]
          unfold exReplacer
          rw [codec_roundtrip v.1, codec_roundtrip v.2]
          have hnone2 : lookupB (v.1, v.2) m = none := hK _ _ hlook
          rw [hnone2, ih r hrlen]

/-! ## The positional replacement leaves a file alone once the old literal
is gone -/

theorem containsSub_some (pat l : List Char) (h : containsSub pat l = true) :
    ∃ u v, l = u ++ pat ++ v := by
  induction l with
  | nil =>
    simp only [containsSub] at h
    cases pat with
    | nil => exact ⟨[], [], rfl⟩
    | cons p ps => simp [List.isPrefixOf] at h
  | cons c t ih =>
    simp only [containsSub, Bool.or_eq_true] at h
    rcases h with h | h
    · obtain ⟨v, hv⟩ := List.isPrefixOf_iff_prefix.mp h
      exact ⟨[], v, by rw [← hv]; rfl⟩
    · obtain ⟨u, v, huv⟩ := ih h
      exact ⟨c :: u, v, by rw [huv]; rfl⟩

theorem containsSub_within (pat x l : List Char) (hx : containsSub pat x = true)
    (hsub : ∃ u v, l = u ++ x ++ v) : containsSub pat l = true := by
  obtain ⟨u, v, hl⟩ := hsub
  obtain ⟨a, b, hx'⟩ := containsSub_some pat x hx
  exact containsSub_of_infix pat pat l (by
    cases pat with
    | nil => simp [containsSub, List.isPrefixOf]
    | cons p ps =>
      simp only [containsSub, Bool.or_eq_true]
      left
      exact List.isPrefixOf_iff_prefix.mpr ⟨[], by simp⟩)
    (u ++ a) (b ++ v) (by rw [hl, hx']; simp)

theorem containsSub_tail_pat (x y l : List Char) (h : containsSub (x ++ y) l = true) :
    containsSub y l = true := by
  obtain ⟨u, v, hl⟩ := containsSub_some (x ++ y) l h
  exact containsSub_of_infix y y l (by
    cases y with
    | nil => simp [containsSub, List.isPrefixOf]
    | cons p ps =>
      simp only [containsSub, Bool.or_eq_true]
      left
      exact List.isPrefixOf_iff_prefix.mpr ⟨[], by simp⟩)
    (u ++ x) v (by rw [hl]; simp)

theorem sizeLineFix_id (o nn ln : Nat) (c : List Char)
    (h : containsSub (natStr o) c = false) : sizeLineFix o nn ln c = c := by
  unfold sizeLineFix
  by_cases hguard : 0 ≤ (ln : Int) - 1 ∧ (ln : Int) - 1 < (splitNl c).length
  · rw [if_pos hguard]
    have hi : ((ln : Int) - 1).toNat < (splitNl c).length := by
      obtain ⟨h1, h2⟩ := hguard
      omega
    have hline_mem : (splitNl c).getD ((ln : Int) - 1).toNat [] ∈ splitNl c := by
      rw [List.getD_eq_getElem?_getD, List.getElem?_eq_getElem hi]
      exact List.getElem_mem hi
    have hline_nc : containsSub (natStr o) ((splitNl c).getD ((ln : Int) - 1).toNat []) = false := by
      cases hcc : containsSub (natStr o) ((splitNl c).getD ((ln : Int) - 1).toNat []) with
      | false => rfl
      | true =>
        have := containsSub_within (natStr o) _ c hcc (mem_splitNl_decomp c _ hline_mem)
        rw [h] at this
        exact Bool.noConfusion this
    simp only []
    rw [replaceAll_of_not_contains _ _ _ hline_nc]
    simp
  · rw [if_neg hguard]

theorem sizeLinePhase_id (ms : List SizeM) (fname c : List Char)
    (h : ∀ e ∈ ms, containsSub (natStr e.1) c = false) :
    sizeLinePhase ms fname c = c := by
  induction ms with
  | nil => rfl
  | cons e t ih =>
    unfold sizeLinePhase
    simp only [List.foldl_cons]
    have hstep : (if e.2.2.1 = fname then sizeLineFix e.1 e.2.1 e.2.2.2 c else c) = c := by
      by_cases hf : e.2.2.1 = fname
      · rw [if_pos hf, sizeLineFix_id e.1 e.2.1 e.2.2.2 c (h e (List.mem_cons_self _ _))]
      · rw [if_neg hf]
    rw [hstep]
    exact ih (fun x hx => h x (List.mem_cons_of_mem e hx))

theorem sizeNamePhase_id (ms : List SizeM) (fname c : List Char)
    (h : ∀ e ∈ ms, containsSub (natStr e.1) c = false) :
    sizeNamePhase ms fname c = c := by
  induction ms with
  | nil => rfl
  | cons e t ih =>
    unfold sizeNamePhase
    simp only [List.foldl_cons]
    have hnc : containsSub (s2l "size is " ++ natStr e.1) c = false := by
      cases hcc : containsSub (s2l "size is " ++ natStr e.1) c with
      | false => rfl
      | true =>
        have := containsSub_tail_pat (s2l "size is ") (natStr e.1) c hcc
        rw [h e (List.mem_cons_self _ _)] at this
        exact Bool.noConfusion this
    have hstep : (if e.2.2.1 = fname then
        replaceAll (s2l "size is " ++ natStr e.1) (s2l "size is " ++ natStr e.2.1) c
        else c) = c := by
      by_cases hf : e.2.2.1 = fname
      · rw [if_pos hf, replaceAll_of_not_contains _ _ _ hnc]
      · rw [if_neg hf]
    rw [hstep]
    exact ih (fun x hx => h x (List.mem_cons_of_mem e hx))

/-! ## Engine-level idempotence (claim C2) -/

/-- With an empty mapping the replacer keeps every match verbatim, so the
scan is the identity. -/
theorem exSub_empty_map (l : List Char) : exSub [] l = l := by
  suffices H : ∀ f (l : List Char), l.length ≤ f → exSub [] l = l by
    exact H l.length l (le_refl _)
  intro f
  induction f with
  | zero =>
    intro l hl
    have : l = [] := List.length_eq_zero.mp (by omega)
    subst this
    rfl
  | succ f ih =>
    intro l hl
    cases l with
    | nil => rfl
    | cons c t =>
      cases hmt : tryMatchEx (c :: t) with
      | none =>
        rw [exSub_cons_none [] c t hmt,
          ih t (by simp only [List.length_cons] at hl; omega)]
      | some q =>
        obtain ⟨w, g1, g2, r⟩ := q
        rw [exSub_match [] hmt]
        obtain ⟨hleq, _, _⟩ := tryMatchEx_some_facts hmt
        have hrep : exReplacer [] w g1 g2 = w := rfl
        have hrlen : r.length ≤ f := by
          have := tryMatchEx_consume hmt
          simp only [List.length_cons] at hl this
          omega
        rw [hrep, ih r hrlen, ← hleq]

theorem lookupB_mem {p q : Cost} : ∀ {m : BMap}, lookupB p m = some q → (p, q) ∈ m := by
  intro m
  induction m with
  | nil => intro h; exact Option.noConfusion h
  | cons e t ih =>
    intro h
    obtain ⟨k, v⟩ := e
    unfold lookupB at h
    by_cases hk : k = p
    · rw [if_pos hk] at h
      have := Option.some_inj.mp h
      subst hk
      subst this
      exact List.mem_cons_self _ _
    · rw [if_neg hk] at h
      exact List.mem_cons_of_mem _ (ih h)

theorem replaceExFilesGo_id (m : BMap) : ∀ files : List FileEntry,
    (∀ fe ∈ files, exSub m fe.2 = fe.2) → replaceExFilesGo m files = (files, []) := by
  intro files
  induction files with
  | nil => intro _; rfl
  | cons fe fs ih =>
    intro h
    obtain ⟨n, c⟩ := fe
    have hc : exSub m c = c := h (n, c) (List.mem_cons_self _ _)
    unfold replaceExFilesGo
    rw [ih (fun x hx => h x (List.mem_cons_of_mem _ hx))]
    simp [hc]

theorem replace_exunits_id (m : BMap) (files : List FileEntry)
    (h : ∀ fe ∈ files, exSub m fe.2 = fe.2) : replace_exunits m files = (files, []) := by
  unfold replace_exunits
  by_cases hm : m = []
  · rw [if_pos hm]
  · rw [if_neg hm]
    exact replaceExFilesGo_id m files h

theorem replaceSzFilesGo_id (ms : List SizeM) : ∀ files : List FileEntry,
    (∀ fe ∈ files, ∀ e ∈ ms, containsSub (natStr e.1) fe.2 = false) →
    replaceSzFilesGo ms files = (files, []) := by
  intro files
  induction files with
  | nil => intro _; rfl
  | cons fe fs ih =>
    intro h
    obtain ⟨n, c⟩ := fe
    have hline := sizeLinePhase_id ms n c (h (n, c) (List.mem_cons_self _ _))
    have hname := sizeNamePhase_id ms n c (h (n, c) (List.mem_cons_self _ _))
    unfold replaceSzFilesGo
    rw [ih (fun x hx => h x (List.mem_cons_of_mem _ hx))]
    simp [hline, hname]

theorem replace_sizes_id (ms : List SizeM) (files : List FileEntry)
    (h : ∀ fe ∈ files, ∀ e ∈ ms, containsSub (natStr e.1) fe.2 = false) :
    replace_sizes ms files = (files, []) := by
  unfold replace_sizes
  by_cases hms : ms = []
  · rw [if_pos hms]
  · rw [if_neg hms]
    rw [replaceSzFilesGo_id ms files h]
    rfl

theorem replaceExFilesGo_mem (m : BMap) : ∀ files : List FileEntry,
    ∀ fe ∈ (replaceExFilesGo m files).1, ∃ c0, fe.2 = exSub m c0 := by
  intro files
  induction files with
  | nil => intro fe hfe; exact absurd hfe (List.not_mem_nil fe)
  | cons f0 fs ih =>
    intro fe hfe
    obtain ⟨n, c⟩ := f0
    unfold replaceExFilesGo at hfe
    simp only [] at hfe
    rcases List.mem_cons.mp hfe with h | h
    · exact ⟨c, by rw [h]⟩
    · exact ih fe h

/-- **C2 (amended)**: applying the Replacement Engine a second time to the
files produced by the first application changes no file content and reports
no modified files, provided (a) no value of the `BudgetMapping` is also one
of its keys, and (b) no size mismatch's old value occurs as a decimal
substring in the files produced by the paired replacement. -/
theorem replacement_engine_idem (m : BMap) (s : List SizeM) (files : List FileEntry)
    (hK : ∀ e ∈ m, lookupB e.2 m = none)
    (hS : ∀ fe ∈ (replace_exunits m files).1, ∀ e ∈ s,
      containsSub (natStr e.1) fe.2 = false) :
    applyEngine m s (applyEngine m s files).1 = ((applyEngine m s files).1, []) := by
  have hK' : ∀ p q, lookupB p m = some q → lookupB q m = none := by
    intro p q hpq
    exact hK (p, q) (lookupB_mem hpq)
  have hsz1 : replace_sizes s (replace_exunits m files).1 =
      ((replace_exunits m files).1, []) :=
    replace_sizes_id s _ hS
  have hF1 : (applyEngine m s files).1 = (replace_exunits m files).1 := by
    unfold applyEngine
    simp only []
    rw [hsz1]
  have hcontents : ∀ fe ∈ (replace_exunits m files).1, exSub m fe.2 = fe.2 := by
    intro fe hfe
    unfold replace_exunits at hfe
    by_cases hm : m = []
    · subst hm
      exact exSub_empty_map fe.2
    · rw [if_neg hm] at hfe
      obtain ⟨c0, hc0⟩ := replaceExFilesGo_mem m files fe hfe
      rw [hc0]
      exact exSub_idem m hK' c0
  have hex2 : replace_exunits m (replace_exunits m files).1 =
      ((replace_exunits m files).1, []) :=
    replace_exunits_id m _ hcontents
  have hsz2 : replace_sizes s (replace_exunits m files).1 =
      ((replace_exunits m files).1, []) :=
    replace_sizes_id s _ hS
  rw [hF1]
  unfold applyEngine
  simp only []
  rw [hex2]
  simp only []
  rw [hsz2]
  rfl

/-! ## Replacement precision (claim C7) -/

theorem NumShape_natStr (n : Nat) : NumShape (natStr n) :=
  ⟨natStr n, natStr_ne_nil n,
    fun c hc => isNumCh_of_isDig (natStr_all_dig n c hc), Or.inl rfl⟩

theorem strip_natStr (n : Nat) : strip_num (natStr n) = n := by
  unfold strip_num
  rw [filter_ne_underscore_of_dig _ (natStr_all_dig n),
    rstripL_of_dig _ (natStr_all_dig n), strToNat_natStr]

theorem natStr_head (n : Nat) :
    ∃ d rest, natStr n = d :: rest ∧ isDig d = true := by
  cases hn : natStr n with
  | nil => exact absurd hn (natStr_ne_nil n)
  | cons d rest =>
    exact ⟨d, rest, rfl, natStr_all_dig n d (hn ▸ List.mem_cons_self _ _)⟩

/-- A plain (unnamed, ungrouped) literal followed by anything matches as
itself. -/
theorem tryMatchEx_plain (a b : Nat) (x : List Char) :
    tryMatchEx (s2l "ExUnits(" ++ natStr a ++ ',' :: (natStr b ++ [')']) ++ x) =
    some (s2l "ExUnits(" ++ natStr a ++ ',' :: (natStr b ++ [')']), natStr a, natStr b, x) := by
  have hb := tryMatchEx_build [] [] (natStr a) [] [] [] (natStr b) [] x
    SpList_nil SpList_nil SpList_nil SpList_nil (Or.inl rfl) (Or.inl rfl)
    (NumShape_natStr a) (NumShape_natStr b)
  have heq : s2l "ExUnits(" ++ natStr a ++ ',' :: (natStr b ++ [')']) =
      litExUnits ++ [] ++ [] ++ natStr a ++ [] ++ ',' :: ([] ++ [] ++ natStr b ++ [] ++ [')']) := by
    simp [litExUnits]
  rw [heq]
  exact hb

theorem exSub_copy_front (m : BMap) : ∀ (p : List Char), 'E' ∉ p → ∀ l,
    exSub m (p ++ l) = p ++ exSub m l := by
  intro p
  induction p with
  | nil => intro _ l; rfl
  | cons c p' ih =>
    intro hp l
    have hc : ¬ c = 'E' := fun h => hp (h ▸ List.mem_cons_self c p')
    rw [List.cons_append, exSub_cons_none m c (p' ++ l) (tryMatchEx_none_of_ne_E hc),
      ih (fun h => hp (List.mem_cons_of_mem c h)) l]
    rfl

/-- **C7** (replacement precision): in a file holding two distinct
resource-cost literals of which exactly one parses to a mapping key, the
paired replacement rewrites that literal to the canonical new form and
leaves the other occurrence byte-for-byte identical; moreover the rewritten
literal really differs from its original text. -/
theorem replace_precision (m : BMap) (m1 s1 m2 s2 n1 n2 : Nat)
    (hin : lookupB (m1, s1) m = some (n1, n2))
    (hout : lookupB (m2, s2) m = none) :
    exSub m (s2l "val a = " ++ ((s2l "ExUnits(" ++ natStr m1 ++ ',' :: (natStr s1 ++ [')'])) ++
        (s2l "\nval b = " ++ ((s2l "ExUnits(" ++ natStr m2 ++ ',' :: (natStr s2 ++ [')'])) ++
          ['\n'])))) =
      s2l "val a = " ++ (fmt_exunits n1 n2 ++
        (s2l "\nval b = " ++ ((s2l "ExUnits(" ++ natStr m2 ++ ',' :: (natStr s2 ++ [')'])) ++
          ['\n'])))
    ∧ fmt_exunits n1 n2 ≠ s2l "ExUnits(" ++ natStr m1 ++ ',' :: (natStr s1 ++ [')']) := by
  constructor
  · rw [exSub_copy_front m (s2l "val a = ") (by decide)]
    congr 1
    rw [show (s2l "ExUnits(" ++ natStr m1 ++ ',' :: (natStr s1 ++ [')'])) ++
        (s2l "\nval b = " ++ ((s2l "ExUnits(" ++ natStr m2 ++ ',' :: (natStr s2 ++ [')'])) ++
          ['\n'])) =
        s2l "ExUnits(" ++ natStr m1 ++ ',' :: (natStr s1 ++ [')']) ++
        (s2l "\nval b = " ++ ((s2l "ExUnits(" ++ natStr m2 ++ ',' :: (natStr s2 ++ [')'])) ++
          ['\n'])) from by simp]
    rw [exSub_match m (tryMatchEx_plain m1 s1 _)]
    have hrep1 : exReplacer m (s2l "ExUnits(" ++ natStr m1 ++ ',' :: (natStr s1 ++ [')']))
        (natStr m1) (natStr s1) = fmt_exunits n1 n2 := by
      unfold exReplacer
      rw [strip_natStr, strip_natStr, hin]
    rw [hrep1]
    congr 1
    rw [exSub_copy_front m (s2l "\nval b = ") (by decide)]
    congr 1
    rw [exSub_match m (tryMatchEx_plain m2 s2 ['\n'])]
    have hrep2 : exReplacer m (s2l "ExUnits(" ++ natStr m2 ++ ',' :: (natStr s2 ++ [')']))
        (natStr m2) (natStr s2) = s2l "ExUnits(" ++ natStr m2 ++ ',' :: (natStr s2 ++ [')']) := by
      unfold exReplacer
      rw [strip_natStr, strip_natStr, hout]
    rw [hrep2]
    congr 1
  · intro hcontr
    obtain ⟨d, rest, hd, hdig⟩ := natStr_head m1
    have h8 : (fmt_exunits n1 n2)[8]? =
        (s2l "ExUnits(" ++ natStr m1 ++ ',' :: (natStr s1 ++ [')']))[8]? := by
      rw [hcontr]
    have hL : (fmt_exunits n1 n2)[8]? = some 'm' := rfl
    have hR : (s2l "ExUnits(" ++ natStr m1 ++ ',' :: (natStr s1 ++ [')']))[8]? = some d := by
      rw [hd, List.getElem?_append,
        if_pos (by rw [List.length_append, show (s2l "ExUnits(").length = 8 from rfl,
          List.length_cons]; omega),
        List.getElem?_append, if_neg (by decide)]
      rw [show (8 - (s2l "ExUnits(").length) = 0 from rfl]
      exact List.getElem?_cons_zero
    rw [hL, hR] at h8
    have : ('m' : Char) = d := Option.some_inj.mp h8
    rw [← this] at hdig
    exact Bool.noConfusion ((by decide : isDig 'm' = false).symm.trans hdig)

/-- Counterexample to unconditional idempotence of the replacement pass:
with the chained mapping {(1,2) ↦ (3,4), (3,4) ↦ (5,6)} a second engine
application rewrites the output of the first one again. -/
theorem replacement_engine_idem_cex :
    applyEngine [((1, 2), (3, 4)), ((3, 4), (5, 6))] []
        (applyEngine [((1, 2), (3, 4)), ((3, 4), (5, 6))] []
          [(s2l "A.scala", s2l "ExUnits(1,2) x")]).1
      ≠ ((applyEngine [((1, 2), (3, 4)), ((3, 4), (5, 6))] []
          [(s2l "A.scala", s2l "ExUnits(1,2) x")]).1, []) := by
  decide

/-- Witness for `replacement_engine_idem` at a concrete mapping, size list
and file set satisfying both hypotheses. -/
theorem replacement_engine_idem_witness :
    applyEngine [((1, 2), (3, 4))] [(9, 7, s2l "A.scala", 1)]
        (applyEngine [((1, 2), (3, 4))] [(9, 7, s2l "A.scala", 1)]
          [(s2l "A.scala", s2l "ExUnits(1,2) x 5")]).1
      = ((applyEngine [((1, 2), (3, 4))] [(9, 7, s2l "A.scala", 1)]
          [(s2l "A.scala", s2l "ExUnits(1,2) x 5")]).1, []) :=
  replacement_engine_idem _ _ _ (by decide) (by decide)

/-- Witness for `replace_precision` at a concrete mapping and file text. -/
theorem replace_precision_witness :
    exSub [((1, 2), (3, 4))]
        (s2l "val a = " ++ ((s2l "ExUnits(" ++ natStr 1 ++ ',' :: (natStr 2 ++ [')'])) ++
          (s2l "\nval b = " ++ ((s2l "ExUnits(" ++ natStr 5 ++ ',' :: (natStr 6 ++ [')'])) ++
            ['\n'])))) =
      s2l "val a = " ++ (fmt_exunits 3 4 ++
        (s2l "\nval b = " ++ ((s2l "ExUnits(" ++ natStr 5 ++ ',' :: (natStr 6 ++ [')'])) ++
          ['\n'])))
    ∧ fmt_exunits 3 4 ≠ s2l "ExUnits(" ++ natStr 1 ++ ',' :: (natStr 2 ++ [')']) :=
  replace_precision [((1, 2), (3, 4))] 1 2 5 6 3 4 (by decide) (by decide)

/-! ## C3: the per-line size replacement is line-scoped -/

theorem replaceAll_natStr_no_nl (o nw : Nat) (line : List Char) (h : '\n' ∉ line) :
    '\n' ∉ replaceAll (natStr o) (natStr nw) line := by
  intro hmem
  rcases mem_replaceAll (natStr o) (natStr nw) line '\n' hmem with h1 | h1
  · exact h h1
  · exact absurd (natStr_all_dig nw '\n' h1) (by decide)

theorem sizeLineFix_eq (o nw ln : Nat) (content : List Char) :
    sizeLineFix o nw ln content =
      if 0 ≤ (ln : Int) - 1 ∧ (ln : Int) - 1 < (splitNl content).length then
        (if replaceAll (natStr o) (natStr nw)
              ((splitNl content).getD ((ln : Int) - 1).toNat []) ≠
            (splitNl content).getD ((ln : Int) - 1).toNat [] then
          joinNl ((splitNl content).set ((ln : Int) - 1).toNat
            (replaceAll (natStr o) (natStr nw)
              ((splitNl content).getD ((ln : Int) - 1).toNat [])))
        else content)
      else content := rfl

theorem sizeLineFix_getElem (o nw ln : Nat) (content : List Char) (j : Nat) :
    (splitNl (sizeLineFix o nw ln content))[j]? =
      if j + 1 = ln then
        ((splitNl content)[j]?).map (replaceAll (natStr o) (natStr nw))
      else (splitNl content)[j]? := by
  rw [sizeLineFix_eq]
  by_cases hg : 0 ≤ (ln : Int) - 1 ∧ (ln : Int) - 1 < (splitNl content).length
  · rw [if_pos hg]
    obtain ⟨hg1, hg2⟩ := hg
    have hi : ((ln : Int) - 1).toNat = ln - 1 := by omega
    have hlt : ln - 1 < (splitNl content).length := by omega
    have hold : (splitNl content)[ln - 1]? =
        some ((splitNl content).getD (ln - 1) []) := by
      rw [List.getD_eq_getElem (splitNl content) [] hlt]
      exact List.getElem?_eq_getElem hlt
    rw [hi]
    by_cases hne : replaceAll (natStr o) (natStr nw)
        ((splitNl content).getD (ln - 1) []) ≠ (splitNl content).getD (ln - 1) []
    · rw [if_pos hne]
      have hsplit : splitNl (joinNl ((splitNl content).set (ln - 1)
          (replaceAll (natStr o) (natStr nw) ((splitNl content).getD (ln - 1) [])))) =
          (splitNl content).set (ln - 1)
            (replaceAll (natStr o) (natStr nw) ((splitNl content).getD (ln - 1) [])) := by
      --
        apply splitNl_joinNl
        · intro h0
          have hlen := List.length_set (splitNl content) (ln - 1)
            (replaceAll (natStr o) (natStr nw) ((splitNl content).getD (ln - 1) []))
          rw [h0] at hlen
          exact splitNl_ne_nil content (List.length_eq_zero.mp hlen.symm)
        · intro x hx
          rcases List.mem_or_eq_of_mem_set hx with h | h
          · exact splitNl_no_nl content x h
          · rw [h]
            apply replaceAll_natStr_no_nl
            apply splitNl_no_nl content
            rw [List.getD_eq_getElem (splitNl content) [] hlt]
            exact List.getElem_mem hlt
      rw [hsplit]
      by_cases hj : j + 1 = ln
      · rw [if_pos hj]
        have hji : j = ln - 1 := by omega
        rw [hji, List.getElem?_set_self hlt, hold]
        rfl
      · rw [if_neg hj]
        exact List.getElem?_set_ne (by omega)
    · rw [if_neg hne]
      push_neg at hne
      by_cases hj : j + 1 = ln
      · rw [if_pos hj]
        have hji : j = ln - 1 := by omega
        rw [hji, hold]
        exact congrArg some hne.symm
      · rw [if_neg hj]
  · rw [if_neg hg]
    by_cases hj : j + 1 = ln
    · rw [if_pos hj]
      have hge : (splitNl content).length ≤ j := by
        rcases not_and_or.mp hg with h | h
        · omega
        · omega
      rw [List.getElem?_eq_none_iff.mpr hge]
      rfl
    · rw [if_neg hj]

/-- **C3** (line-scoped positional replacement): for a size mismatch with old
value `o`, new value `nw` and 1-based line number `ln`, the per-line fix
leaves every line other than line `ln` of the file byte-for-byte unchanged;
line `ln` itself (when it exists) becomes exactly the old line with each
occurrence of the decimal rendering of `o` replaced by that of `nw`; a
singleton mismatch list acts on the named file via exactly this per-line
fix, and leaves any file with a different name completely unchanged in both
the line-scoped and the file-wide `"size is"` phases. -/
theorem positional_replacement_line_scoped (o nw ln : Nat) (content : List Char) :
    (∀ j : Nat, j + 1 ≠ ln →
        (splitNl (sizeLineFix o nw ln content))[j]? = (splitNl content)[j]?)
    ∧ (∀ j : Nat, j + 1 = ln →
        (splitNl (sizeLineFix o nw ln content))[j]? =
          ((splitNl content)[j]?).map (replaceAll (natStr o) (natStr nw)))
    ∧ (∀ f c, sizeLinePhase [(o, nw, f, ln)] f c = sizeLineFix o nw ln c)
    ∧ (∀ f n c, f ≠ n →
        sizeLinePhase [(o, nw, f, ln)] n c = c
        ∧ sizeNamePhase [(o, nw, f, ln)] n c = c) := by
  refine ⟨?_, ?_, ?_, ?_⟩
  · intro j hj
    rw [sizeLineFix_getElem, if_neg hj]
  · intro j hj
    rw [sizeLineFix_getElem, if_pos hj]
  · intro f c
    simp [sizeLinePhase]
  · intro f n c hfn
    exact ⟨by simp [sizeLinePhase, hfn], by simp [sizeNamePhase, hfn]⟩

/-- Witness for `positional_replacement_line_scoped`: the fix for
`123 → 83` at line 2 leaves line 1 untouched. -/
theorem positional_replacement_line_scoped_witness :
    (splitNl (sizeLineFix 123 83 2 (s2l "a 123\nb 123\nc")))[0]? =
      (splitNl (s2l "a 123\nb 123\nc"))[0]? :=
  (positional_replacement_line_scoped 123 83 2 (s2l "a 123\nb 123\nc")).1 0 (by decide)

/-! ## C6: mapping direction of the equality-assertion form -/

theorem spc_of_dig_false {c : Char} (h : isDig c = true) : isSpc c = false :=
  numCh_not_spc (isNumCh_of_isDig h)

theorem scanP1Aux_nil (f : Nat) : scanP1Aux f [] = [] := by
  cases f <;> rfl

theorem scanP2Aux_nil (f : Nat) : scanP2Aux f [] = [] := by
  cases f <;> rfl

theorem scanP3Aux_nil (f : Nat) : scanP3Aux f [] = [] := by
  cases f <;> rfl

theorem tryMatchP1_mem {l : List Char} {r : (Cost × Cost) × List Char}
    (h : tryMatchP1 l = some r) : 'p' ∈ l := by
  unfold tryMatchP1 at h
  cases h1 : matchLit litExpected l with
  | none => rw [h1] at h; exact Option.noConfusion h
  | some l1 =>
    rw [matchLit_some h1]
    exact List.mem_append_left _ (by decide)

theorem scanP1Aux_no_p : ∀ (f : Nat) (l : List Char), 'p' ∉ l → scanP1Aux f l = []
  | 0, _, _ => rfl
  | _ + 1, [], _ => rfl
  | f + 1, c :: t, hp => by
    cases h1 : tryMatchP1 (c :: t) with
    | some r => exact absurd (tryMatchP1_mem h1) hp
    | none =>
      simp only [scanP1Aux, h1]
      exact scanP1Aux_no_p f t (fun h => hp (List.mem_cons_of_mem c h))

theorem tryMatchP3_mem {l : List Char} {r : (Nat × Nat × List Char × Nat) × List Char}
    (h : tryMatchP3 l = some r) : '.' ∈ l := by
  unfold tryMatchP3 at h
  cases h1 : digTok l with
  | none => rw [h1] at h; exact Option.noConfusion h
  | some p1 =>
    obtain ⟨d1, l1⟩ := p1
    rw [h1] at h
    simp only [] at h
    cases h2 : matchLit litDidNotEq l1 with
    | none => rw [h2] at h; exact Option.noConfusion h
    | some l2 =>
      rw [h2] at h
      simp only [] at h
      cases h3 : digTok l2 with
      | none => rw [h3] at h; exact Option.noConfusion h
      | some p3 =>
        obtain ⟨d2, l3⟩ := p3
        rw [h3] at h
        simp only [] at h
        cases h4 : matchLit (s2l " (") l3 with
        | none => rw [h4] at h; exact Option.noConfusion h
        | some l4 =>
          rw [h4] at h
          simp only [] at h
          cases h5 : l4.takeWhile isWordCh with
          | nil => rw [h5] at h; exact Option.noConfusion h
          | cons w ws =>
            rw [h5] at h
            simp only [] at h
            cases h6 : matchLit litScala (l4.dropWhile isWordCh) with
            | none => rw [h6] at h; exact Option.noConfusion h
            | some l5 =>
              have hm4 : '.' ∈ l4 := by
                rw [← List.takeWhile_append_dropWhile isWordCh l4]
                refine List.mem_append_right _ ?_
                rw [matchLit_some h6]
                exact List.mem_append_left _ (by decide)
              have hm3 : '.' ∈ l3 := by
                rw [matchLit_some h4]
                exact List.mem_append_right _ hm4
              have hm2 : '.' ∈ l2 := by
                rw [(digTok_some h3).1]
                exact List.mem_append_right _ hm3
              have hm1 : '.' ∈ l1 := by
                rw [matchLit_some h2]
                exact List.mem_append_right _ hm2
              rw [(digTok_some h1).1]
              exact List.mem_append_right _ hm1

theorem scanP3Aux_no_dot : ∀ (f : Nat) (l : List Char), '.' ∉ l → scanP3Aux f l = []
  | 0, _, _ => rfl
  | _ + 1, [], _ => rfl
  | f + 1, c :: t, hp => by
    cases h1 : tryMatchP3 (c :: t) with
    | some r => exact absurd (tryMatchP3_mem h1) hp
    | none =>
      simp only [scanP3Aux, h1]
      exact scanP3Aux_no_dot f t (fun h => hp (List.mem_cons_of_mem c h))

theorem tryAnsi_none {c : Char} {t : List Char} (hc1 : ¬ c = '\x1b') (hc2 : ¬ c = '[') :
    tryAnsi (c :: t) = none := by
  unfold tryAnsi
  rw [show s2l "\x1b[" = '\x1b' :: ['['] from rfl, matchLit_cons_ne hc1,
    show s2l "[0J" = '[' :: ['0', 'J'] from rfl, matchLit_cons_ne hc2]

theorem stripAnsiAux_id : ∀ (f : Nat) (l : List Char),
    (∀ x ∈ l, ¬ x = '\x1b' ∧ ¬ x = '[') → stripAnsiAux f l = l
  | 0, _, _ => rfl
  | _ + 1, [], _ => rfl
  | f + 1, c :: t, hl => by
    have hc := hl c (List.mem_cons_self c t)
    simp only [stripAnsiAux, tryAnsi_none hc.1 hc.2]
    rw [stripAnsiAux_id f t (fun x hx => hl x (List.mem_cons_of_mem c hx))]

theorem strip_ansi_id (l : List Char) (h : ∀ x ∈ l, ¬ x = '\x1b' ∧ ¬ x = '[') :
    strip_ansi l = l :=
  stripAnsiAux_id l.length l h

theorem dropWhile_spc_natStr (n : Nat) (x : List Char) :
    (natStr n ++ x).dropWhile isSpc = natStr n ++ x := by
  obtain ⟨d, rest, hd, hdig⟩ := natStr_head n
  rw [hd, List.cons_append, List.dropWhile_cons,
    if_neg (by rw [spc_of_dig_false hdig]; exact Bool.false_ne_true)]

theorem tryMatchP2_build (a b c d : Nat) :
    tryMatchP2 (litExUnits ++ (natStr c ++ ',' :: (natStr d ++ (litP2Mid ++
        (natStr a ++ ',' :: (natStr b ++ [')'])))))) =
      some (((c, d), (a, b)), []) := by
  unfold tryMatchP2
  rw [matchLit_self]
  simp only []
  rw [digTok_build (natStr c) (natStr_ne_nil c) (natStr_all_dig c) ',' (by decide) _]
  simp only [if_pos rfl]
  rw [dropWhile_spc_natStr d (litP2Mid ++ (natStr a ++ ',' :: (natStr b ++ [')'])))]
  rw [show litP2Mid ++ (natStr a ++ ',' :: (natStr b ++ [')'])) =
    ')' :: (s2l " did not equal ExUnits(" ++ (natStr a ++ ',' :: (natStr b ++ [')'])))
    from rfl]
  rw [digTok_build (natStr d) (natStr_ne_nil d) (natStr_all_dig d) ')' (by decide) _]
  simp only []
  rw [show ')' :: (s2l " did not equal ExUnits(" ++ (natStr a ++ ',' :: (natStr b ++ [')']))) =
    litP2Mid ++ (natStr a ++ ',' :: (natStr b ++ [')'])) from rfl]
  rw [matchLit_self]
  simp only []
  rw [digTok_build (natStr a) (natStr_ne_nil a) (natStr_all_dig a) ',' (by decide) _]
  simp only [if_pos rfl]
  rw [show natStr b ++ [')'] = natStr b ++ ')' :: ([] : List Char) from rfl,
    dropWhile_spc_natStr b (')' :: []),
    digTok_build (natStr b) (natStr_ne_nil b) (natStr_all_dig b) ')' (by decide) []]
  simp only [if_pos rfl]
  rw [strToNat_natStr, strToNat_natStr, strToNat_natStr, strToNat_natStr]
  simp

theorem scanP2_of_single {l : List Char} {e : Cost × Cost}
    (h : tryMatchP2 l = some (e, [])) : scanP2 l = [e] := by
  have hl : ∃ t, l = 'E' :: t := by
    unfold tryMatchP2 at h
    cases h1 : matchLit litExUnits l with
    | none => rw [h1] at h; exact Option.noConfusion h
    | some l1 => exact ⟨s2l "xUnits(" ++ l1, by rw [matchLit_some h1]; rfl⟩
  obtain ⟨t, ht⟩ := hl
  unfold scanP2
  rw [ht]
  simp only [List.length_cons, scanP2Aux]
  rw [← ht, h]
  simp only []
  rw [scanP2Aux_nil]

/-- **C6** (direction of the equality-assertion form): parsing the text
`ExUnits(c,d) did not equal ExUnits(a,b)` produces exactly the mapping
entry `(a,b) ↦ (c,d)` — the second operand (the expected/old pair) is the
key and the first operand (the actual/new pair) is the value — and no size
mismatches. -/
theorem p2_direction (a b c d : Nat) :
    parse_failures (litExUnits ++ (natStr c ++ ',' :: (natStr d ++ (litP2Mid ++
        (natStr a ++ ',' :: (natStr b ++ [')'])))))) =
      ([((a, b), (c, d))], []) := by
  have hchars : ∀ x ∈ litExUnits ++ (natStr c ++ ',' :: (natStr d ++ (litP2Mid ++
      (natStr a ++ ',' :: (natStr b ++ [')']))))),
      ¬ x = '\x1b' ∧ ¬ x = '[' ∧ ¬ x = 'p' ∧ ¬ x = '.' := by
    intro x hx
    have hdig : ∀ n : Nat, x ∈ natStr n →
        ¬ x = '\x1b' ∧ ¬ x = '[' ∧ ¬ x = 'p' ∧ ¬ x = '.' := by
      intro n hn
      have hx' := natStr_all_dig n x hn
      refine ⟨?_, ?_, ?_, ?_⟩ <;>
        · intro he
          rw [he] at hx'
          exact absurd hx' (by decide)
    simp only [List.mem_append, List.mem_cons, List.mem_singleton] at hx
    rcases hx with h | h | h | h | h | h | h | h | h
    · exact (by decide : ∀ y ∈ litExUnits,
        ¬ y = '\x1b' ∧ ¬ y = '[' ∧ ¬ y = 'p' ∧ ¬ y = '.') x h
    · exact hdig c h
    · rw [h]; exact (by decide)
    · exact hdig d h
    · exact (by decide : ∀ y ∈ litP2Mid,
        ¬ y = '\x1b' ∧ ¬ y = '[' ∧ ¬ y = 'p' ∧ ¬ y = '.') x h
    · exact hdig a h
    · rw [h]; exact (by decide)
    · exact hdig b h
    · rcases h with h | h
      · rw [h]; exact (by decide)
      · exact absurd h (List.not_mem_nil x)
  unfold parse_failures
  simp only []
  rw [strip_ansi_id _ (fun x hx => ⟨(hchars x hx).1, (hchars x hx).2.1⟩)]
  rw [show scanP1 (litExUnits ++ (natStr c ++ ',' :: (natStr d ++ (litP2Mid ++
      (natStr a ++ ',' :: (natStr b ++ [')'])))))) = [] from
    scanP1Aux_no_p _ _ (fun hp => (hchars 'p' hp).2.2.1 rfl)]
  rw [scanP2_of_single (tryMatchP2_build a b c d)]
  rw [show scanP3 (litExUnits ++ (natStr c ++ ',' :: (natStr d ++ (litP2Mid ++
      (natStr a ++ ',' :: (natStr b ++ [')'])))))) = [] from
    scanP3Aux_no_dot _ _ (fun hp => (hchars '.' hp).2.2.2 rfl)]
  rfl

/-! ## C1: exclusion of scalar mismatches -/

/-- **C1** (amended — scalar exclusion checks keys only): every scalar
mismatch `(expected o, actual n)` that reaches the size-mismatch output of
a parse call has `o ≠ n` and neither `(o, n)` nor `(n, o)` occurs **as a
key** of the mapping built in the same call.  (The original claim also
promised exclusion when the pair occurs as a mapping *value*; the code
performs only key lookups — see the counterexample.) -/
theorem scalar_exclusion (output : List Char) (o n : Nat) (f : List Char) (ln : Nat)
    (h : (o, n, f, ln) ∈ (parse_failures output).2) :
    ¬ o = n ∧ lookupB (o, n) (parse_failures output).1 = none
      ∧ lookupB (n, o) (parse_failures output).1 = none := by
  unfold parse_failures at h ⊢
  obtain ⟨e, he, hsome⟩ := List.mem_filterMap.mp h
  by_cases h1 : e.1 = e.2.1
  · rw [if_pos h1] at hsome
    exact Option.noConfusion hsome
  · rw [if_neg h1] at hsome
    cases hb : (lookupB (e.2.1, e.1) ((scanP2 (strip_ansi output)).foldl
          (fun m e => dictInsert e.2 e.1 m)
          ((scanP1 (strip_ansi output)).foldl (fun m e => dictInsert e.1 e.2 m) []))).isSome
        || (lookupB (e.1, e.2.1) ((scanP2 (strip_ansi output)).foldl
          (fun m e => dictInsert e.2 e.1 m)
          ((scanP1 (strip_ansi output)).foldl (fun m e => dictInsert e.1 e.2 m) []))).isSome with
    | true =>
      rw [hb] at hsome
      simp only [if_true] at hsome
      exact Option.noConfusion hsome
    | false =>
      rw [hb] at hsome
      rw [if_neg Bool.false_ne_true] at hsome
      obtain ⟨hb1, hb2⟩ := Bool.or_eq_false_iff.mp hb
      simp only [Option.some_inj, Prod.mk.injEq] at hsome
      obtain ⟨ho, hn, -, -⟩ := hsome
      subst ho
      subst hn
      refine ⟨fun hc => h1 hc.symm, ?_, ?_⟩
      · cases hx : lookupB (e.2.1, e.1) ((scanP2 (strip_ansi output)).foldl
            (fun m e => dictInsert e.2 e.1 m)
            ((scanP1 (strip_ansi output)).foldl (fun m e => dictInsert e.1 e.2 m) [])) with
        | none => rfl
        | some v => rw [hx] at hb1; exact Bool.noConfusion hb1
      · cases hx : lookupB (e.1, e.2.1) ((scanP2 (strip_ansi output)).foldl
            (fun m e => dictInsert e.2 e.1 m)
            ((scanP1 (strip_ansi output)).foldl (fun m e => dictInsert e.1 e.2 m) [])) with
        | none => rfl
        | some v => rw [hx] at hb2; exact Bool.noConfusion hb2

/-- Counterexample to the "as a key **or as a value**" part of the spec:
the pair `(10,20)` occurs as a mapping *value* in the parse of this text,
yet the scalar mismatch `(20,10)` built from the same components is kept in
the size-mismatch output. -/
theorem scalar_exclusion_cex :
    lookupB (30, 40) (parse_failures (s2l
        "ExUnits(10,20) did not equal ExUnits(30,40)\n10 did not equal 20 (F.scala:5)")).1
      = some (10, 20)
    ∧ (20, 10, s2l "F.scala", 5) ∈ (parse_failures (s2l
        "ExUnits(10,20) did not equal ExUnits(30,40)\n10 did not equal 20 (F.scala:5)")).2 := by
  decide

/-- Witness for `scalar_exclusion` at a concrete parsed text. -/
theorem scalar_exclusion_witness :
    ¬ (20 : Nat) = 10
    ∧ lookupB (20, 10)
        (parse_failures (s2l "10 did not equal 20 (F.scala:5)")).1 = none
    ∧ lookupB (10, 20)
        (parse_failures (s2l "10 did not equal 20 (F.scala:5)")).1 = none :=
  scalar_exclusion (s2l "10 did not equal 20 (F.scala:5)") 20 10 (s2l "F.scala") 5
    (by decide)

/-! ## C8: stall detection halts the fix-up loop -/

/-- **C8** (stall halts the loop in the same iteration): whenever the parse
of the current output yields a non-empty mapping or size-mismatch list but
the replacement engine reports zero updated files, `loop1` returns
immediately with status `stalled`: the runner index is unchanged (no
further rerun step is consumed), the output is unchanged, and no further
iteration happens — regardless of how much of the 25-iteration budget is
left. -/
theorem controller_stalls (oracle : Runner) (f : Nat) (st : LoopSt)
    (hne : ¬ ((parse_failures st.output).1 = [] ∧ (parse_failures st.output).2 = []))
    (hstall : (applyEngine (parse_failures st.output).1 (parse_failures st.output).2
        st.files).2 = []) :
    loop1 false oracle (f + 1) st =
      { files := (applyEngine (parse_failures st.output).1 (parse_failures st.output).2
            st.files).1,
        allEx := (parse_failures st.output).1.foldl (fun mm e => dictInsert e.1 e.2 mm)
          st.allEx,
        allSz := st.allSz ++ (parse_failures st.output).2,
        failing := if parse_failing_classes st.output ≠ [] then
          parse_failing_classes st.output else st.failing,
        updSet := st.updSet, idx := st.idx, output := st.output,
        status := .stalled } := by
  unfold loop1
  rw [if_neg hne, if_neg Bool.false_ne_true, if_pos hstall]

/-- Witness for `controller_stalls`: a scalar mismatch against a file set
that holds no matching file stalls the loop with a full iteration budget
left. -/
theorem controller_stalls_witness :
    loop1 false (fun _ => ([], 1)) (24 + 1)
        { output := s2l "5 did not equal 7 (Foo.scala:3)",
          files := [(s2l "Bar.scala", s2l "x")],
          allEx := [], allSz := [], failing := [], updSet := [], idx := 3 } =
      { files := (applyEngine
            (parse_failures (s2l "5 did not equal 7 (Foo.scala:3)")).1
            (parse_failures (s2l "5 did not equal 7 (Foo.scala:3)")).2
            [(s2l "Bar.scala", s2l "x")]).1,
        allEx := (parse_failures (s2l "5 did not equal 7 (Foo.scala:3)")).1.foldl
          (fun mm e => dictInsert e.1 e.2 mm) [],
        allSz := [] ++ (parse_failures (s2l "5 did not equal 7 (Foo.scala:3)")).2,
        failing := if parse_failing_classes (s2l "5 did not equal 7 (Foo.scala:3)") ≠ [] then
          parse_failing_classes (s2l "5 did not equal 7 (Foo.scala:3)") else [],
        updSet := [], idx := 3, output := s2l "5 did not equal 7 (Foo.scala:3)",
        status := .stalled } :=
  controller_stalls (fun _ => ([], 1)) 24
    { output := s2l "5 did not equal 7 (Foo.scala:3)",
      files := [(s2l "Bar.scala", s2l "x")],
      allEx := [], allSz := [], failing := [], updSet := [], idx := 3 }
    (by decide) (by decide)

/-! ## C9: the statistics report -/

theorem foldl_statsStep (m : BMap) : ∀ st : Nat × Nat × List ℚ × List ℚ,
    m.foldl statsStep st =
      (st.1 + (m.filter isDecrease).length,
       st.2.1 + (m.filter (fun e => !isDecrease e)).length,
       st.2.2.1 ++ m.map (fun e => pctQ e.1.1 e.2.1),
       st.2.2.2 ++ m.map (fun e => pctQ e.1.2 e.2.2)) := by
  induction m with
  | nil => intro st; simp
  | cons e t ih =>
    intro st
    rw [List.foldl_cons, ih]
    by_cases hd : isDecrease e = true
    · simp [statsStep, hd, List.filter_cons]
      omega
    · simp only [Bool.not_eq_true] at hd
      simp [statsStep, hd, List.filter_cons]
      omega

theorem regList_eq (m : BMap) :
    (m.filterMap fun e => if e.1.1 < e.2.1 ∨ e.1.2 < e.2.2 then
        some (e, pctQ e.1.1 e.2.1, pctQ e.1.2 e.2.2) else none) =
      (m.filter (fun e => !isDecrease e)).map
        (fun e => (e, pctQ e.1.1 e.2.1, pctQ e.1.2 e.2.2)) := by
  induction m with
  | nil => rfl
  | cons e t ih =>
    rw [List.filterMap_cons, List.filter_cons]
    by_cases hd : e.1.1 < e.2.1 ∨ e.1.2 < e.2.2
    · rw [if_pos hd]
      have hb : (!isDecrease e) = true := by
        simp [isDecrease]
        omega
      rw [hb, if_pos rfl, List.map_cons, ih]
    · rw [if_neg hd]
      have hb : (!isDecrease e) = false := by
        simp [isDecrease]
        omega
      rw [hb]
      simp only [Bool.false_eq_true, if_false]
      exact ih

/-- **C9** (statistics): on a non-trivial input the report counts every
mapping entry, computes each per-component percentage via
`delta/old*100` with `old = 0` giving `0` (the `pctQ` of the embedding),
counts an entry as an improvement exactly when both components' deltas are
`≤ 0` and as an increase otherwise, and emits the itemized regression
listing — one `(entry, mem %, steps %)` row per regressed entry — exactly
when at least one regression exists. -/
theorem statistics_spec (m : BMap) (sizes : List SizeM) (hne : ¬ (m = [] ∧ sizes = [])) :
    (report_statistics m sizes).total = m.length
    ∧ (report_statistics m sizes).memPcts = m.map (fun e => pctQ e.1.1 e.2.1)
    ∧ (report_statistics m sizes).stepsPcts = m.map (fun e => pctQ e.1.2 e.2.2)
    ∧ (report_statistics m sizes).decreases = (m.filter isDecrease).length
    ∧ (report_statistics m sizes).increases =
        (m.filter (fun e => !isDecrease e)).length
    ∧ (report_statistics m sizes).regressions =
        (if (m.filter (fun e => !isDecrease e)).length = 0 then none
         else some ((m.filter (fun e => !isDecrease e)).map
           (fun e => (e, pctQ e.1.1 e.2.1, pctQ e.1.2 e.2.2)))) := by
  unfold report_statistics
  rw [if_neg hne]
  simp only [foldl_statsStep]
  refine ⟨by simp, by simp, by simp, by simp, by simp, ?_⟩
  simp only [Nat.zero_add, regList_eq]
  by_cases hl : (m.filter (fun e => !isDecrease e)).length = 0
  · simp [hl]
  · simp [hl]

/-- Witness for `statistics_spec`: the report over one improvement and one
regression counts two entries. -/
theorem statistics_spec_witness :
    (report_statistics [((2, 3), (1, 3)), ((4, 5), (6, 5))] []).total =
      ([((2, 3), (1, 3)), ((4, 5), (6, 5))] : BMap).length :=
  (statistics_spec [((2, 3), (1, 3)), ((4, 5), (6, 5))] [] (by decide)).1

/-! ## C10: dry-run safety -/

theorem loop1_dry (oracle : Runner) : ∀ (f : Nat) (st : LoopSt),
    (loop1 true oracle f st).files = st.files ∧ (loop1 true oracle f st).idx = st.idx := by
  intro f st
  cases f with
  | zero => exact ⟨rfl, rfl⟩
  | succ f =>
    unfold loop1
    by_cases hp : (parse_failures st.output).1 = [] ∧ (parse_failures st.output).2 = []
    · rw [if_pos hp]
      exact ⟨rfl, rfl⟩
    · rw [if_neg hp, if_pos rfl]
      exact ⟨rfl, rfl⟩

/-- **C10** (dry-run safety): in dry-run mode the program leaves the file
system exactly as it found it and exits with status 0, whatever the runner
reports — including an initial failure whose mismatches are never
resolved. -/
theorem dry_run_safe (oracle : Runner) (files0 : List FileEntry) :
    (update_budgets_main true oracle files0).exitCode = 0
    ∧ (update_budgets_main true oracle files0).files = files0 := by
  unfold update_budgets_main
  by_cases h0 : (oracle 0).2 = 0
  · rw [if_pos h0]
    exact ⟨rfl, rfl⟩
  · rw [if_neg h0, if_pos rfl]
    exact ⟨rfl, (loop1_dry oracle 25 _).1⟩

end UB
